import Mathlib

/-!
Shallow embedding of the overlapping-model Wave Function Collapse engine
of this repository (`src/wfc.rs`, `src/pattern.rs`, `src/sample.rs`).

Modelling conventions:
* Rust `f64` values are modelled as exact rationals; `f64::ln` is an
  uninterpreted function `lg : Rat → Rat` carried in the solver state
  (the code only caches such values and compares them).
* The thread-local RNG is modelled as an explicit stream of rationals,
  one entry consumed per `rng.random::<f64>()` call.
* `Vec` indexing is modelled with `List.getD`; loops become folds over
  `List.range` in the iteration order of the source.
* `HashMap` / `HashSet` are modelled as first-insertion-ordered
  association lists / lists; the real iteration order is randomized per
  process, which is treated explicitly where a claim depends on it.
-/

abbrev Color : Type := Nat × Nat × Nat

structure Sample where
  width : Nat
  height : Nat
  pixels : List Color
deriving DecidableEq

def Sample.get (s : Sample) (x y : Nat) : Color :=
  s.pixels.getD (y * s.width + x) (0, 0, 0)

structure Pattern where
  size : Nat
  pixels : List Color
deriving DecidableEq

def Pattern.get (p : Pattern) (x y : Nat) : Color :=
  p.pixels.getD (y * p.size + x) (0, 0, 0)

/-- Rotate 90 degrees clockwise: `rotated[x*n + (n-1-y)] = source.get x y`,
so the pixel at index `i` is `source.get (i / n) (n - 1 - i % n)`. -/
def Pattern.rotate (p : Pattern) : Pattern :=
  ⟨p.size, (List.range (p.size * p.size)).map fun i =>
    p.get (i / p.size) (p.size - 1 - i % p.size)⟩

/-- Reflect horizontally: `reflected[y*n + (n-1-x)] = source.get x y`,
so the pixel at index `i` is `source.get (n - 1 - i % n) (i / n)`. -/
def Pattern.reflect (p : Pattern) : Pattern :=
  ⟨p.size, (List.range (p.size * p.size)).map fun i =>
    p.get (p.size - 1 - i % p.size) (i / p.size)⟩

def insertUniq {α : Type} [DecidableEq α] (l : List α) (a : α) : List α :=
  if a ∈ l then l else l ++ [a]

/-- `Pattern::symmetries`: four rotations, each inserted together with its
reflection into a set.  The Rust `HashSet` is modelled as a
first-insertion-ordered duplicate-free list of the eight variants. -/
def Pattern.symmetries (p : Pattern) : List Pattern :=
  let r1 := p.rotate
  let r2 := r1.rotate
  let r3 := r2.rotate
  [p, p.reflect, r1, r1.reflect, r2, r2.reflect, r3, r3.reflect].foldl insertUniq []

structure WfcConfig where
  patternSize : Nat
  outputWidth : Nat
  outputHeight : Nat
  periodicInput : Bool
  periodicOutput : Bool
  symmetry : Bool
  ground : Bool
  sides : Bool
deriving DecidableEq

/-- Direction encoding of `wfc.rs`: Right = 0, Down = 1, Left = 2, Up = 3. -/
def dirDx : Nat → Int
  | 0 => 1
  | 2 => -1
  | _ => 0

def dirDy : Nat → Int
  | 1 => 1
  | 3 => -1
  | _ => 0

/-- `Wfc::patterns_agree`: the overlap rectangle
`max(0,dx) ≤ x < n + min(0,dx)`, `max(0,dy) ≤ y < n + min(0,dy)` must agree
pointwise, comparing `p1.get x y` with `p2.get (x-dx) (y-dy)`.  The source
loops exactly over the rectangle; here the full square is traversed with the
rectangle test as a guard, which checks the same set of pairs. -/
def patternsAgree (p1 p2 : Pattern) (dx dy : Int) (n : Nat) : Bool :=
  (List.range n).all fun y => (List.range n).all fun x =>
    if (max dx 0).toNat ≤ x ∧ x < (n + min dx 0).toNat ∧
       (max dy 0).toNat ≤ y ∧ y < (n + min dy 0).toNat then
      decide (p1.get x y = p2.get ((x - dx : Int)).toNat ((y - dy : Int)).toNat)
    else true

/-- `Wfc::build_propagator`: `propagator[i][d]` collects, in increasing `j`
order, every `j` with `patterns_agree(p_i, p_j, dx_d, dy_d)`. -/
def buildPropagator (patterns : List Pattern) (n : Nat) : List (List (List Nat)) :=
  (List.range patterns.length).map fun i =>
    (List.range 4).map fun d =>
      (List.range patterns.length).filter fun j =>
        patternsAgree (patterns.getD i ⟨0, []⟩) (patterns.getD j ⟨0, []⟩)
          (dirDx d) (dirDy d) n

def propGet (prop : List (List (List Nat))) (i d : Nat) : List Nat :=
  (prop.getD i []).getD d []

structure ExtractOut where
  counts : List (Pattern × Nat)
  topSet : List Pattern
  bottomSet : List Pattern
  leftSet : List Pattern
  rightSet : List Pattern
deriving DecidableEq

/-- `*pattern_counts.entry(variant).or_insert(0) += 1`, with the `HashMap`
modelled as a first-insertion-ordered association list. -/
def bumpCount : List (Pattern × Nat) → Pattern → List (Pattern × Nat)
  | [], p => [(p, 1)]
  | (q, k) :: rest, p =>
      if p = q then (q, k + 1) :: rest else (q, k) :: bumpCount rest p

/-- The `n × n` window at `(x, y)`, read with modulo-wrapped coordinates,
`dy` outer and `dx` inner as in the source. -/
def extractWindow (sample : Sample) (n x y : Nat) : Pattern :=
  ⟨n, ((List.range n).map fun dy => (List.range n).map fun dx =>
        sample.get ((x + dx) % sample.width) ((y + dy) % sample.height)).flatten⟩

def extractVariants (cfg : WfcConfig) (p : Pattern) : List Pattern :=
  if cfg.symmetry then
    if cfg.ground || cfg.sides then [p, p.reflect] else p.symmetries
  else [p]

def extractStep (sample : Sample) (cfg : WfcConfig) (acc : ExtractOut)
    (x y : Nat) : ExtractOut :=
  let n := cfg.patternSize
  (extractVariants cfg (extractWindow sample n x y)).foldl (fun acc v =>
    { counts := bumpCount acc.counts v
      topSet := if y = 0 then insertUniq acc.topSet v else acc.topSet
      bottomSet := if sample.height ≤ y + n then insertUniq acc.bottomSet v
                   else acc.bottomSet
      leftSet := if x = 0 then insertUniq acc.leftSet v else acc.leftSet
      rightSet := if sample.width ≤ x + n then insertUniq acc.rightSet v
                  else acc.rightSet }) acc

/-- `Wfc::extract_patterns`; `saturating_sub` is truncated `Nat`
subtraction. -/
def extractPatterns (sample : Sample) (cfg : WfcConfig) : ExtractOut :=
  let n := cfg.patternSize
  let xMax := if cfg.periodicInput then sample.width else sample.width - (n - 1)
  let yMax := if cfg.periodicInput then sample.height else sample.height - (n - 1)
  (List.range yMax).foldl (fun acc y =>
    (List.range xMax).foldl (fun acc x => extractStep sample cfg acc x y) acc)
    { counts := [], topSet := [], bottomSet := [], leftSet := [], rightSet := [] }

def ExtractOut.patterns (e : ExtractOut) : List Pattern :=
  e.counts.map Prod.fst

def ExtractOut.weights (e : ExtractOut) : List ℚ :=
  e.counts.map fun pc => (pc.2 : ℚ)

/-! ## Solver state (`struct Wfc`) -/

structure WfcState where
  cfg : WfcConfig
  patterns : List Pattern
  weights : List ℚ
  propagator : List (List (List Nat))
  wave : List (List Bool)
  sumsone : List Nat
  sumweights : List ℚ
  sumweightlogweights : List ℚ
  logWeights : List ℚ
  startingEntropy : ℚ
  stack : List (Nat × Nat)
  contradiction : Bool
  done : Bool
  lastCollapsed : Option (Nat × Nat)
  topPatterns : List Bool
  bottomPatterns : List Bool
  leftPatterns : List Bool
  rightPatterns : List Bool
  lg : ℚ → ℚ

def waveGet (s : WfcState) (cell p : Nat) : Bool :=
  (s.wave.getD cell []).getD p false

/-- Count of `true` entries of a wave row. -/
def cnt : List Bool → Nat
  | [] => 0
  | b :: t => (if b then 1 else 0) + cnt t

/-- Weighted sum over the `true` entries of a wave row. -/
def wSum : List Bool → List ℚ → ℚ
  | b :: bs, w :: ws => (if b then w else 0) + wSum bs ws
  | _, _ => 0

/-- `Σ w·lg w` over the `true` entries of a wave row. -/
def wlSum (lg : ℚ → ℚ) : List Bool → List ℚ → ℚ
  | b :: bs, w :: ws => (if b then w * lg w else 0) + wlSum lg bs ws
  | _, _ => 0

/-- Total number of allowed (cell, pattern) pairs over the whole wave. -/
def totalTrue (s : WfcState) : Nat :=
  (s.wave.map cnt).sum

def nextRand (rng : List ℚ) : ℚ × List ℚ :=
  match rng with
  | [] => (0, [])
  | q :: rest => (q, rest)

/-- `Wfc::ban`: flip the wave bit, update the three per-cell statistics,
push onto the propagation stack; no-op when the bit is already false. -/
def ban (s : WfcState) (cell pattern : Nat) : WfcState :=
  if waveGet s cell pattern = true then
    { s with
      wave := s.wave.set cell ((s.wave.getD cell []).set pattern false)
      sumsone := s.sumsone.set cell (s.sumsone.getD cell 0 - 1)
      sumweights := s.sumweights.set cell
        (s.sumweights.getD cell 0 - s.weights.getD pattern 0)
      sumweightlogweights := s.sumweightlogweights.set cell
        (s.sumweightlogweights.getD cell 0 -
          s.weights.getD pattern 0 * s.logWeights.getD pattern 0)
      stack := (cell, pattern) :: s.stack }
  else s

/-- One direction of `Wfc::propagate`'s inner loop: collect `to_ban`
against the current state, then ban each entry, aborting (second
component `true`) as soon as the neighbour's `sumsone` hits zero. -/
def procDir (st : WfcState) (cell pattern d neighbor : Nat) : WfcState × Bool :=
  let row := st.wave.getD cell []
  let toBan := (propGet st.propagator pattern d).filter fun other =>
    (st.wave.getD neighbor []).getD other false &&
    !((List.range row.length).any fun p =>
        row.getD p false && (propGet st.propagator p d).contains other)
  toBan.foldl (fun acc other =>
    if acc.2 then acc
    else
      let s1 := ban acc.1 neighbor other
      if s1.sumsone.getD neighbor 0 = 0 then
        ({ s1 with contradiction := true }, true)
      else (s1, false)) (st, false)

/-- Neighbour cell index for direction `d`: wrap with Euclidean remainder
when `periodic_output`, otherwise skip out-of-bounds. -/
def neighborIndex (cfg : WfcConfig) (x y d : Nat) : Option Nat :=
  let nx : Int := (x : Int) + dirDx d
  let ny : Int := (y : Int) + dirDy d
  if cfg.periodicOutput then
    some ((ny.emod cfg.outputHeight).toNat * cfg.outputWidth +
          (nx.emod cfg.outputWidth).toNat)
  else if nx < 0 ∨ (cfg.outputWidth : Int) ≤ nx ∨
          ny < 0 ∨ (cfg.outputHeight : Int) ≤ ny then none
  else some (ny.toNat * cfg.outputWidth + nx.toNat)

/-- Process one popped stack entry over the four directions
Right, Down, Left, Up. -/
def processEntry (s : WfcState) (cell pattern : Nat) : WfcState × Bool :=
  let x := cell % s.cfg.outputWidth
  let y := cell / s.cfg.outputWidth
  (List.range 4).foldl (fun acc d =>
    if acc.2 then acc
    else
      match neighborIndex s.cfg x y d with
      | none => acc
      | some nb => procDir acc.1 cell pattern d nb) (s, false)

/-- `Wfc::propagate` as a fueled loop.  Every iteration pops one stack
entry, and each `ban` keeps `totalTrue + stack.length` constant while the
pop decreases it, so fuel `totalTrue s + s.stack.length` always suffices
to drain the stack exactly as the source's `while` loop does. -/
def propagateFuel : Nat → WfcState → WfcState
  | 0, s => s
  | fuel + 1, s =>
    match s.stack with
    | [] => s
    | (cell, pattern) :: rest =>
      let r := processEntry { s with stack := rest } cell pattern
      if r.2 then r.1 else propagateFuel fuel r.1

def propagate (s : WfcState) : WfcState :=
  propagateFuel (totalTrue s + s.stack.length) s

/-- One cell of the `ground`/`sides` ban loops: ban every still-allowed
pattern not permitted by `allowed`. -/
def banRow (s : WfcState) (cell : Nat) (allowed : List Bool) : WfcState :=
  (List.range s.patterns.length).foldl (fun acc p =>
    if waveGet acc cell p = true ∧ allowed.getD p false = false then
      ban acc cell p
    else acc) s

/-- `Wfc::apply_edge_constraints`. -/
def applyEdgeConstraints (s : WfcState) : WfcState :=
  let w := s.cfg.outputWidth
  let h := s.cfg.outputHeight
  let s1 :=
    if s.cfg.ground then
      let sa := (List.range w).foldl
        (fun acc x => banRow acc x acc.topPatterns) s
      (List.range w).foldl
        (fun acc x => banRow acc ((h - 1) * w + x) acc.bottomPatterns) sa
    else s
  let s2 :=
    if s.cfg.sides then
      let sb := (List.range h).foldl
        (fun acc y => banRow acc (y * w) acc.leftPatterns) s1
      (List.range h).foldl
        (fun acc y => banRow acc (y * w + (w - 1)) acc.rightPatterns) sb
    else s1
  propagate s2

/-- The state built by `Wfc::new` just before `apply_edge_constraints`. -/
def mkInitState (patterns : List Pattern) (weights : List ℚ)
    (topS bottomS leftS rightS : List Pattern) (cfg : WfcConfig)
    (lg : ℚ → ℚ) : WfcState :=
  let numPatterns := patterns.length
  let waveSize := cfg.outputWidth * cfg.outputHeight
  let totalWeight : ℚ := weights.sum
  let logWeights := weights.map lg
  let swlw : ℚ := (List.zipWith (· * ·) weights logWeights).sum
  { cfg := cfg
    patterns := patterns
    weights := weights
    propagator := buildPropagator patterns cfg.patternSize
    wave := List.replicate waveSize (List.replicate numPatterns true)
    sumsone := List.replicate waveSize numPatterns
    sumweights := List.replicate waveSize totalWeight
    sumweightlogweights := List.replicate waveSize swlw
    logWeights := logWeights
    startingEntropy := lg totalWeight - swlw / totalWeight
    stack := []
    contradiction := false
    done := false
    lastCollapsed := none
    topPatterns := patterns.map fun p => decide (p ∈ topS)
    bottomPatterns := patterns.map fun p => decide (p ∈ bottomS)
    leftPatterns := patterns.map fun p => decide (p ∈ leftS)
    rightPatterns := patterns.map fun p => decide (p ∈ rightS)
    lg := lg }

def wfcInitFrom (patterns : List Pattern) (weights : List ℚ)
    (topS bottomS leftS rightS : List Pattern) (cfg : WfcConfig)
    (lg : ℚ → ℚ) : WfcState :=
  applyEdgeConstraints (mkInitState patterns weights topS bottomS leftS rightS cfg lg)

/-- `Wfc::new`. -/
def wfcNew (sample : Sample) (cfg : WfcConfig) (lg : ℚ → ℚ) : WfcState :=
  let e := extractPatterns sample cfg
  wfcInitFrom e.patterns e.weights e.topSet e.bottomSet e.leftSet e.rightSet cfg lg

/-- The state rebuilt by `Wfc::reset` just before `apply_edge_constraints`:
wave, statistics, stack and flags are reinitialised from the cached
patterns, weights and `log_weights`. -/
def mkResetState (s : WfcState) : WfcState :=
  let numPatterns := s.patterns.length
  let waveSize := s.cfg.outputWidth * s.cfg.outputHeight
  let totalWeight : ℚ := s.weights.sum
  let swlw : ℚ := (List.zipWith (· * ·) s.weights s.logWeights).sum
  { s with
    wave := List.replicate waveSize (List.replicate numPatterns true)
    sumsone := List.replicate waveSize numPatterns
    sumweights := List.replicate waveSize totalWeight
    sumweightlogweights := List.replicate waveSize swlw
    stack := []
    contradiction := false
    done := false
    lastCollapsed := none }

def wfcReset (s : WfcState) : WfcState :=
  applyEdgeConstraints (mkResetState s)

/-- `Wfc::entropy`. -/
def entropyFn (s : WfcState) (cell : Nat) : ℚ :=
  if s.sumweights.getD cell 0 ≤ 0 then 0
  else s.lg (s.sumweights.getD cell 0) -
    s.sumweightlogweights.getD cell 0 / s.sumweights.getD cell 0

/-- `entropy < min_entropy`, where `minE = none` models the initial
`f64::MAX` (every finite entropy compares below it). -/
def minLt (e : ℚ) (minE : Option ℚ) : Bool :=
  match minE with
  | none => true
  | some m => decide (e < m)

/-- `Wfc::observe`'s cell loop: cells with count 0 abort with the
contradiction flag, cells with count 1 are skipped before any RNG draw,
and every other cell draws one tie-breaking noise sample. -/
def observeLoop (s : WfcState) : List Nat → List ℚ → Option ℚ → Option Nat →
    Option Nat × WfcState × List ℚ
  | [], rng, _, minCell => (minCell, s, rng)
  | c :: rest, rng, minE, minCell =>
    let count := s.sumsone.getD c 0
    if count = 0 then (none, { s with contradiction := true }, rng)
    else if count = 1 then observeLoop s rest rng minE minCell
    else
      let (q, rng1) := nextRand rng
      let e := entropyFn s c + q * (1 / 1000000)
      if minLt e minE = true then observeLoop s rest rng1 (some e) (some c)
      else observeLoop s rest rng1 minE minCell

def observeFn (s : WfcState) (rng : List ℚ) : Option Nat × WfcState × List ℚ :=
  observeLoop s (List.range s.wave.length) rng none none

def collapsePossible (s : WfcState) (cell : Nat) : List Nat :=
  (List.range s.patterns.length).filter fun i => waveGet s cell i

def collapseTotal (s : WfcState) (cell : Nat) : ℚ :=
  ((collapsePossible s cell).map fun i => s.weights.getD i 0).sum

/-- The `possible.iter().find(...)` walk: subtract each weight from `r`
and return the first index at which the remainder drops to `≤ 0`. -/
def walkPick (ws : List ℚ) : List Nat → ℚ → Option Nat
  | [], _ => none
  | p :: rest, r =>
    let r1 := r - ws.getD p 0
    if r1 ≤ 0 then some p else walkPick ws rest r1

/-- `.unwrap_or(possible[0])`: the fallback is the FIRST allowed pattern. -/
def pickWithFallback (ws : List ℚ) (ps : List Nat) (r : ℚ) : Nat :=
  (walkPick ws ps r).getD (ps.getD 0 0)

def collapseChosen (s : WfcState) (cell : Nat) (q : ℚ) : Nat :=
  pickWithFallback s.weights (collapsePossible s cell)
    (q * collapseTotal s cell)

/-- `Wfc::collapse`. -/
def collapseFn (s : WfcState) (cell : Nat) (rng : List ℚ) :
    WfcState × List ℚ :=
  let possible := collapsePossible s cell
  if possible.isEmpty then ({ s with contradiction := true }, rng)
  else
    let (q, rng1) := nextRand rng
    let chosen := collapseChosen s cell q
    ((List.range s.patterns.length).foldl (fun acc p =>
      if p ≠ chosen ∧ waveGet acc cell p = true then ban acc cell p
      else acc) s, rng1)

/-- `Wfc::step`. -/
def stepFn (s : WfcState) (rng : List ℚ) : Bool × WfcState × List ℚ :=
  if s.contradiction || s.done then (false, s, rng)
  else
    match observeFn s rng with
    | (none, s1, rng1) =>
      if s1.contradiction = false then (false, { s1 with done := true }, rng1)
      else (false, s1, rng1)
    | (some cell, s1, rng1) =>
      let s2 := { s1 with
        lastCollapsed := some (cell % s1.cfg.outputWidth, cell / s1.cfg.outputWidth) }
      let (s3, rng2) := collapseFn s2 cell rng1
      (true, propagate s3, rng2)

/-- `Wfc::run` as a fueled loop; every `step` that returns `true`
strictly shrinks `totalTrue`, so fuel `totalTrue s + 1` reproduces
`while self.step() {}` (proved below). -/
def wfcRunFuel : Nat → WfcState → List ℚ → WfcState
  | 0, s, _ => s
  | fuel + 1, s, rng =>
    let r := stepFn s rng
    if r.1 then wfcRunFuel fuel r.2.1 r.2.2 else r.2.1

def wfcRun (s : WfcState) (rng : List ℚ) : WfcState :=
  wfcRunFuel (totalTrue s + 1) s rng

def ratToU8 (q : ℚ) : Nat :=
  (min 255 (max 0 q.floor)).toNat

/-- `Wfc::get_color`. -/
def getColor (s : WfcState) (x y : Nat) : Color :=
  let cell := y * s.cfg.outputWidth + x
  let possible := (List.range s.patterns.length).filter fun i => waveGet s cell i
  if possible.length = 0 then (128, 0, 128)
  else if possible.length = 1 then
    (s.patterns.getD (possible.getD 0 0) ⟨0, []⟩).get 0 0
  else
    let acc := possible.foldl (fun (acc : ℚ × ℚ × ℚ × ℚ) p =>
      let w := s.weights.getD p 0
      let c := (s.patterns.getD p ⟨0, []⟩).get 0 0
      (acc.1 + (c.1 : ℚ) * w, acc.2.1 + (c.2.1 : ℚ) * w,
       acc.2.2.1 + (c.2.2 : ℚ) * w, acc.2.2.2 + w)) (0, 0, 0, 0)
    (ratToU8 (acc.1 / acc.2.2.2), ratToU8 (acc.2.1 / acc.2.2.2),
     ratToU8 (acc.2.2.1 / acc.2.2.2))

/-- `Wfc::render`: row-major. -/
def render (s : WfcState) : List Color :=
  ((List.range s.cfg.outputHeight).map fun y =>
    (List.range s.cfg.outputWidth).map fun x => getColor s x y).flatten

/-- States reachable from a given constructed solver by `step` (with any
RNG draws) and `reset`; `run` is the iteration of `step`, so every state
an interleaving of `step()`, `run()` and `reset()` visits is covered. -/
inductive ReachableFrom (s0 : WfcState) : WfcState → Prop
  | refl : ReachableFrom s0 s0
  | step (s : WfcState) (rng : List ℚ) :
      ReachableFrom s0 s → ReachableFrom s0 (stepFn s rng).2.1
  | reset (s : WfcState) :
      ReachableFrom s0 s → ReachableFrom s0 (wfcReset s)

/-- A reachable solver state: anything obtainable from some `Wfc::new`. -/
def Reachable (s : WfcState) : Prop :=
  ∃ sample cfg lg, ReachableFrom (wfcNew sample cfg lg) s

/-! ## List helper lemmas -/

theorem getD_map_rel {α β : Type _} (f : α → β) (l : List α) (i : Nat)
    (dA : α) (dB : β) (hd : f dA = dB) : (l.map f).getD i dB = f (l.getD i dA) := by
  induction l generalizing i with
  | nil => simp [hd]
  | cons a t ih =>
    cases i with
    | zero => simp
    | succ j => simpa using ih j

theorem getD_set_self {α : Type _} {l : List α} {i : Nat} {v d : α}
    (h : i < l.length) : (l.set i v).getD i d = v := by
  induction l generalizing i with
  | nil => simp at h
  | cons a t ih =>
    cases i with
    | zero => simp
    | succ j => simpa using ih (by simpa using h)

theorem getD_set_ne {α : Type _} {l : List α} {i j : Nat} {v d : α}
    (h : i ≠ j) : (l.set i v).getD j d = l.getD j d := by
  induction l generalizing i j with
  | nil => simp
  | cons a t ih =>
    cases i with
    | zero => cases j with
      | zero => exact absurd rfl h
      | succ j2 => simp
    | succ i2 =>
      cases j with
      | zero => simp
      | succ j2 => simpa using ih (fun hh => h (by omega))

theorem getD_true_lt {l : List Bool} {i : Nat}
    (h : l.getD i false = true) : i < l.length := by
  induction l generalizing i with
  | nil => simp at h
  | cons a t ih =>
    cases i with
    | zero => simp
    | succ j => simpa using ih (by simpa using h)

theorem cnt_pos {l : List Bool} {i : Nat}
    (h : l.getD i false = true) : 1 ≤ cnt l := by
  induction l generalizing i with
  | nil => simp at h
  | cons a t ih =>
    cases i with
    | zero =>
      simp at h
      simp [cnt, h]
    | succ j =>
      have := ih (i := j) (by simpa using h)
      simp [cnt]
      omega

theorem cnt_set_false {l : List Bool} {i : Nat}
    (h : l.getD i false = true) : cnt (l.set i false) = cnt l - 1 := by
  induction l generalizing i with
  | nil => simp at h
  | cons a t ih =>
    cases i with
    | zero =>
      simp at h
      simp [cnt, h]
    | succ j =>
      have hj : t.getD j false = true := by simpa using h
      have := cnt_pos hj
      simp [cnt, ih hj]
      cases a
      all_goals simp
      all_goals omega

theorem wSum_set_false {l : List Bool} {i : Nat}
    (h : l.getD i false = true) (ws : List ℚ) :
    wSum (l.set i false) ws = wSum l ws - ws.getD i 0 := by
  induction l generalizing i ws with
  | nil => simp at h
  | cons a t ih =>
    cases ws with
    | nil =>
      cases i
      all_goals simp [wSum]
    | cons w ws2 =>
      cases i with
      | zero =>
        simp at h
        simp [wSum, h]
      | succ j =>
        have hj : t.getD j false = true := by simpa using h
        simp [wSum, ih hj]
        ring

theorem cnt_replicate (n : Nat) : cnt (List.replicate n true) = n := by
  induction n with
  | zero => rfl
  | succ m ih =>
    simp [List.replicate, cnt, ih]
    omega

theorem wSum_replicate (ws : List ℚ) :
    wSum (List.replicate ws.length true) ws = ws.sum := by
  induction ws with
  | nil => rfl
  | cons w t ih => simp [List.replicate, wSum, ih]

theorem wSum_zip_lg (lg : ℚ → ℚ) (l : List Bool) (ws : List ℚ) :
    wSum l (List.zipWith (· * ·) ws (ws.map lg)) = wlSum lg l ws := by
  induction l generalizing ws with
  | nil => cases ws <;> rfl
  | cons b t ih =>
    cases ws with
    | nil => rfl
    | cons w ws2 => simp [wSum, wlSum, ih]

theorem sum_map_cnt_set (w : List (List Bool)) (c : Nat) (r2 : List Bool)
    (hc : c < w.length) :
    ((w.set c r2).map cnt).sum + cnt (w.getD c []) = (w.map cnt).sum + cnt r2 := by
  induction w generalizing c with
  | nil => simp at hc
  | cons a t ih =>
    cases c with
    | zero =>
      show cnt r2 + (t.map cnt).sum + cnt a = cnt a + (t.map cnt).sum + cnt r2
      omega
    | succ j =>
      have := ih j (by simpa using hc)
      show cnt a + ((t.set j r2).map cnt).sum + cnt (t.getD j []) =
        cnt a + (t.map cnt).sum + cnt r2
      omega

/-! ## Generic fold lemmas -/

theorem foldl_pres {α β : Type _} (P : α → Prop) (f : α → β → α)
    (h : ∀ acc a, P acc → P (f acc a)) :
    ∀ (l : List β) (init : α), P init → P (l.foldl f init)
  | [], _, h0 => h0
  | a :: t, init, h0 => foldl_pres P f h t (f init a) (h init a h0)

theorem foldl_proj {α β γ : Type _} (g : α → γ) (f : α → β → α)
    (h : ∀ acc a, g (f acc a) = g acc) :
    ∀ (l : List β) (init : α), g (l.foldl f init) = g init
  | [], _ => rfl
  | a :: t, init => (foldl_proj g f h t (f init a)).trans (h init a)

/-! ## Fields never touched after construction -/

structure BaseData where
  cfg : WfcConfig
  patterns : List Pattern
  weights : List ℚ
  propagator : List (List (List Nat))
  logWeights : List ℚ
  startingEntropy : ℚ
  topPatterns : List Bool
  bottomPatterns : List Bool
  leftPatterns : List Bool
  rightPatterns : List Bool
  lg : ℚ → ℚ

def baseOf (s : WfcState) : BaseData :=
  ⟨s.cfg, s.patterns, s.weights, s.propagator, s.logWeights, s.startingEntropy,
   s.topPatterns, s.bottomPatterns, s.leftPatterns, s.rightPatterns, s.lg⟩

theorem baseOf_ban (s : WfcState) (c p : Nat) : baseOf (ban s c p) = baseOf s := by
  unfold ban
  split
  all_goals rfl


theorem baseOf_procDir (st : WfcState) (cell pattern d neighbor : Nat) :
    baseOf (procDir st cell pattern d neighbor).1 = baseOf st := by
  unfold procDir
  refine foldl_proj (fun acc : WfcState × Bool => baseOf acc.1) _ ?_ _ _
  intro acc a
  dsimp only
  by_cases h2 : acc.2 = true
  · rw [if_pos h2]
  · rw [if_neg h2]
    split
    · exact baseOf_ban acc.1 neighbor a
    · exact baseOf_ban acc.1 neighbor a

theorem baseOf_processEntry (s : WfcState) (cell pattern : Nat) :
    baseOf (processEntry s cell pattern).1 = baseOf s := by
  unfold processEntry
  refine foldl_proj (fun acc : WfcState × Bool => baseOf acc.1) _ ?_ _ _
  intro acc a
  dsimp only
  by_cases h2 : acc.2 = true
  · rw [if_pos h2]
  · rw [if_neg h2]
    split
    · rfl
    · exact baseOf_procDir _ cell pattern a _

theorem baseOf_propagateFuel (fuel : Nat) :
    ∀ s : WfcState, baseOf (propagateFuel fuel s) = baseOf s := by
  induction fuel with
  | zero => intro s; rfl
  | succ m ih =>
    intro s
    unfold propagateFuel
    split
    · rfl
    · dsimp only
      split
      · exact baseOf_processEntry _ _ _
      · exact (ih _).trans (baseOf_processEntry _ _ _)

theorem baseOf_propagate (s : WfcState) : baseOf (propagate s) = baseOf s :=
  baseOf_propagateFuel _ s

theorem baseOf_banRow (s : WfcState) (cell : Nat) (allowed : List Bool) :
    baseOf (banRow s cell allowed) = baseOf s := by
  unfold banRow
  refine foldl_proj baseOf _ ?_ _ _
  intro acc a
  dsimp only
  split
  · exact baseOf_ban acc cell a
  · rfl

theorem baseOf_banRow_foldl (l : List Nat) (g : WfcState → Nat → Nat)
    (u : WfcState → List Bool) (t : WfcState) :
    baseOf (l.foldl (fun acc i => banRow acc (g acc i) (u acc)) t) = baseOf t := by
  refine foldl_proj baseOf _ ?_ _ _
  intro acc a
  exact baseOf_banRow acc (g acc a) (u acc)

theorem baseOf_applyEdge (s : WfcState) :
    baseOf (applyEdgeConstraints s) = baseOf s := by
  unfold applyEdgeConstraints
  refine (baseOf_propagate _).trans ?_
  by_cases hs : s.cfg.sides = true
  · by_cases hg : s.cfg.ground = true
    · simp only [hs, hg, if_true]
      exact (baseOf_banRow_foldl _ _ _ _).trans ((baseOf_banRow_foldl _ _ _ _).trans
        ((baseOf_banRow_foldl _ _ _ _).trans (baseOf_banRow_foldl _ _ _ _)))
    · simp only [hs, hg, if_true, if_false]
      exact (baseOf_banRow_foldl _ _ _ _).trans (baseOf_banRow_foldl _ _ _ _)
  · by_cases hg : s.cfg.ground = true
    · simp only [hs, hg, if_true, if_false]
      exact (baseOf_banRow_foldl _ _ _ _).trans (baseOf_banRow_foldl _ _ _ _)
    · simp only [hs, hg, if_false]
      rfl

theorem baseOf_observeLoop (s : WfcState) (cells : List Nat) :
    ∀ (rng : List ℚ) (minE : Option ℚ) (minCell : Option Nat),
    baseOf (observeLoop s cells rng minE minCell).2.1 = baseOf s := by
  induction cells with
  | nil => intro rng minE minCell; rfl
  | cons c rest ih =>
    intro rng minE minCell
    unfold observeLoop
    dsimp only
    split
    · rfl
    · split
      · exact ih rng _ _
      · split
        · exact ih _ _ _
        · exact ih _ _ _

theorem baseOf_collapseFn (s : WfcState) (cell : Nat) (rng : List ℚ) :
    baseOf (collapseFn s cell rng).1 = baseOf s := by
  unfold collapseFn
  dsimp only
  split
  · rfl
  · refine foldl_proj baseOf _ ?_ _ _
    intro acc a
    dsimp only
    split
    · exact baseOf_ban acc cell a
    · rfl

theorem baseOf_stepFn (s : WfcState) (rng : List ℚ) :
    baseOf (stepFn s rng).2.1 = baseOf s := by
  unfold stepFn
  split
  · rfl
  · have hobs : baseOf (observeFn s rng).2.1 = baseOf s :=
      baseOf_observeLoop s _ rng none none
    split
    · rename_i s1 rng1 heq
      rw [heq] at hobs
      split
      · exact hobs
      · exact hobs
    · rename_i cell s1 rng1 heq
      rw [heq] at hobs
      refine (baseOf_propagate _).trans ?_
      refine (baseOf_collapseFn _ cell rng1).trans ?_
      exact hobs

theorem baseOf_mkResetState (s : WfcState) : baseOf (mkResetState s) = baseOf s := rfl

theorem baseOf_wfcReset (s : WfcState) : baseOf (wfcReset s) = baseOf s :=
  (baseOf_applyEdge _).trans (baseOf_mkResetState s)

theorem baseOf_reachableFrom {s0 s : WfcState} (h : ReachableFrom s0 s) :
    baseOf s = baseOf s0 := by
  induction h with
  | refl => rfl
  | step t rng _ ih => exact (baseOf_stepFn t rng).trans ih
  | reset t _ ih => exact (baseOf_wfcReset t).trans ih

/-! ## Pointwise behaviour of `ban` and wave monotonicity -/

theorem waveGet_lt_cell {s : WfcState} {c p : Nat}
    (h : waveGet s c p = true) : c < s.wave.length := by
  by_contra hn
  have hd : s.wave.getD c [] = [] := List.getD_eq_default _ _ (by omega)
  unfold waveGet at h
  rw [hd] at h
  simp at h

theorem waveGet_lt_row {s : WfcState} {c p : Nat}
    (h : waveGet s c p = true) : p < (s.wave.getD c []).length :=
  getD_true_lt h

theorem wave_length_ban (s : WfcState) (c p : Nat) :
    (ban s c p).wave.length = s.wave.length := by
  unfold ban
  split
  · exact List.length_set s.wave c _
  · rfl

theorem waveGet_ban (s : WfcState) (c p c2 p2 : Nat) :
    waveGet (ban s c p) c2 p2 =
      if c2 = c ∧ p2 = p then false else waveGet s c2 p2 := by
  by_cases h : waveGet s c p = true
  · have hc : c < s.wave.length := waveGet_lt_cell h
    have hp : p < (s.wave.getD c []).length := waveGet_lt_row h
    unfold ban
    rw [if_pos h]
    show ((s.wave.set c ((s.wave.getD c []).set p false)).getD c2 []).getD p2 false = _
    by_cases hc2 : c2 = c
    · subst hc2
      rw [getD_set_self hc]
      by_cases hp2 : p2 = p
      · subst hp2
        rw [getD_set_self hp]
        simp
      · rw [getD_set_ne (fun hh => hp2 hh.symm), if_neg (fun hh => hp2 hh.2)]
        rfl
    · rw [getD_set_ne (fun hh => hc2 hh.symm), if_neg (fun hh => hc2 hh.1)]
      rfl
  · unfold ban
    rw [if_neg h]
    simp only [Bool.not_eq_true] at h
    by_cases hcp : c2 = c ∧ p2 = p
    · obtain ⟨e1, e2⟩ := hcp
      subst e1
      subst e2
      simp [h]
    · rw [if_neg hcp]

def WaveLe (t s : WfcState) : Prop :=
  ∀ c p, waveGet t c p = true → waveGet s c p = true

theorem waveLe_refl (s : WfcState) : WaveLe s s := fun _ _ h => h

theorem waveLe_trans {t u s : WfcState} (h1 : WaveLe t u) (h2 : WaveLe u s) :
    WaveLe t s := fun c p h => h2 c p (h1 c p h)

theorem waveLe_ban (s : WfcState) (c p : Nat) : WaveLe (ban s c p) s := by
  intro c2 p2 h
  rw [waveGet_ban] at h
  by_cases hcp : c2 = c ∧ p2 = p
  · rw [if_pos hcp] at h
    exact absurd h (by simp)
  · rwa [if_neg hcp] at h

theorem waveLe_procDir (st : WfcState) (cell pattern d neighbor : Nat) :
    WaveLe (procDir st cell pattern d neighbor).1 st := by
  unfold procDir
  refine foldl_pres (fun acc : WfcState × Bool => WaveLe acc.1 st) _ ?_ _ _
    (waveLe_refl st)
  intro acc a hacc
  dsimp only
  by_cases h2 : acc.2 = true
  · rwa [if_pos h2]
  · rw [if_neg h2]
    split
    · exact waveLe_trans (waveLe_ban acc.1 neighbor a) hacc
    · exact waveLe_trans (waveLe_ban acc.1 neighbor a) hacc

theorem waveLe_processEntry (s : WfcState) (cell pattern : Nat) :
    WaveLe (processEntry s cell pattern).1 s := by
  unfold processEntry
  refine foldl_pres (fun acc : WfcState × Bool => WaveLe acc.1 s) _ ?_ _ _
    (waveLe_refl s)
  intro acc a hacc
  dsimp only
  by_cases h2 : acc.2 = true
  · rwa [if_pos h2]
  · rw [if_neg h2]
    split
    · exact hacc
    · exact waveLe_trans (waveLe_procDir _ cell pattern a _) hacc

theorem waveLe_propagateFuel (fuel : Nat) :
    ∀ s : WfcState, WaveLe (propagateFuel fuel s) s := by
  induction fuel with
  | zero => exact waveLe_refl
  | succ m ih =>
    intro s
    unfold propagateFuel
    split
    · exact waveLe_refl s
    · dsimp only
      split
      · exact waveLe_processEntry _ _ _
      · exact waveLe_trans (ih _) (waveLe_processEntry _ _ _)

theorem waveLe_propagate (s : WfcState) : WaveLe (propagate s) s :=
  waveLe_propagateFuel _ s

theorem waveLe_banRow (s : WfcState) (cell : Nat) (allowed : List Bool) :
    WaveLe (banRow s cell allowed) s := by
  unfold banRow
  refine foldl_pres (fun acc => WaveLe acc s) _ ?_ _ _ (waveLe_refl s)
  intro acc a hacc
  dsimp only
  split
  · exact waveLe_trans (waveLe_ban acc cell a) hacc
  · exact hacc

theorem waveLe_banRow_foldl (l : List Nat) (g : WfcState → Nat → Nat)
    (u : WfcState → List Bool) (t : WfcState) :
    WaveLe (l.foldl (fun acc i => banRow acc (g acc i) (u acc)) t) t := by
  refine foldl_pres (fun acc => WaveLe acc t) _ ?_ _ _ (waveLe_refl t)
  intro acc a hacc
  exact waveLe_trans (waveLe_banRow acc (g acc a) (u acc)) hacc

/-! ## The statistics invariant -/

theorem getD_zipWith_mul (ws lws : List ℚ) (p : Nat) :
    (List.zipWith (· * ·) ws lws).getD p 0 = ws.getD p 0 * lws.getD p 0 := by
  induction ws generalizing lws p with
  | nil => simp
  | cons w tw ih =>
    cases lws with
    | nil => simp
    | cons lw tlw =>
      cases p with
      | zero => simp
      | succ j => simpa using ih tlw j

theorem cnt_zero_of_false {l : List Bool}
    (h : ∀ p, p < l.length → l.getD p false = false) : cnt l = 0 := by
  induction l with
  | nil => rfl
  | cons b t ih =>
    have hb := h 0 (by simp)
    simp at hb
    have ht : ∀ p, p < t.length → t.getD p false = false := by
      intro p hp
      exact h (p + 1) (by simpa using hp)
    simp [cnt, hb, ih ht]

/-- The incrementally maintained statistics, the `log_weights` cache, the
structural lengths, and the fact that a raised contradiction flag always
comes with an emptied cell. -/
def MainInv (s : WfcState) : Prop :=
  s.sumsone = s.wave.map cnt ∧
  s.sumweights = s.wave.map (fun row => wSum row s.weights) ∧
  s.sumweightlogweights = s.wave.map
    (fun row => wSum row (List.zipWith (· * ·) s.weights s.logWeights)) ∧
  s.logWeights = s.weights.map s.lg ∧
  (∀ row ∈ s.wave, row.length = s.patterns.length) ∧
  s.weights.length = s.patterns.length ∧
  (s.contradiction = true → ∃ c, c < s.wave.length ∧ s.sumsone.getD c 0 = 0)

theorem MainInv_setContra {s : WfcState} (inv : MainInv s)
    (hw : ∃ c, c < s.wave.length ∧ s.sumsone.getD c 0 = 0) :
    MainInv { s with contradiction := true } :=
  ⟨inv.1, inv.2.1, inv.2.2.1, inv.2.2.2.1, inv.2.2.2.2.1,
   inv.2.2.2.2.2.1, fun _ => hw⟩

theorem MainInv_ban {s : WfcState} (inv : MainInv s) (c p : Nat) :
    MainInv (ban s c p) := by
  obtain ⟨h1, h2, h3, h4, h5, h6, h7⟩ := inv
  unfold ban
  by_cases h : waveGet s c p = true
  · rw [if_pos h]
    have hc : c < s.wave.length := waveGet_lt_cell h
    have hp : p < (s.wave.getD c []).length := waveGet_lt_row h
    have hget : (s.wave.getD c []).getD p false = true := h
    refine ⟨?_, ?_, ?_, h4, ?_, h6, ?_⟩
    · show s.sumsone.set c (s.sumsone.getD c 0 - 1) =
        (s.wave.set c ((s.wave.getD c []).set p false)).map cnt
      rw [List.map_set, cnt_set_false hget, h1,
        getD_map_rel cnt s.wave c [] 0 rfl]
    · show s.sumweights.set c (s.sumweights.getD c 0 - s.weights.getD p 0) =
        (s.wave.set c ((s.wave.getD c []).set p false)).map
          (fun row => wSum row s.weights)
      rw [List.map_set, wSum_set_false hget, h2,
        getD_map_rel (fun row => wSum row s.weights) s.wave c [] 0 rfl]
    · show s.sumweightlogweights.set c
          (s.sumweightlogweights.getD c 0 -
            s.weights.getD p 0 * s.logWeights.getD p 0) =
        (s.wave.set c ((s.wave.getD c []).set p false)).map
          (fun row => wSum row (List.zipWith (· * ·) s.weights s.logWeights))
      rw [List.map_set, wSum_set_false hget, h3,
        getD_map_rel (fun row => wSum row (List.zipWith (· * ·) s.weights s.logWeights))
          s.wave c [] 0 rfl, getD_zipWith_mul]
    · intro row2 hmem
      rcases List.mem_or_eq_of_mem_set hmem with hin | heq
      · exact h5 row2 hin
      · subst heq
        rw [List.length_set]
        refine h5 (s.wave.getD c []) ?_
        rw [List.getD_eq_getElem s.wave [] hc]
        exact List.getElem_mem hc
    · intro hcontra
      obtain ⟨c0, hc0, hz⟩ := h7 hcontra
      by_cases hcc : c0 = c
      · exfalso
        subst hcc
        rw [h1, getD_map_rel cnt s.wave c0 [] 0 rfl] at hz
        have := cnt_pos hget
        omega
      · refine ⟨c0, ?_, ?_⟩
        · show c0 < (s.wave.set c ((s.wave.getD c []).set p false)).length
          rw [List.length_set]
          exact hc0
        · show (s.sumsone.set c (s.sumsone.getD c 0 - 1)).getD c0 0 = 0
          rw [getD_set_ne (fun hh => hcc hh.symm)]
          exact hz
  · rw [if_neg h]
    exact ⟨h1, h2, h3, h4, h5, h6, h7⟩

theorem MainInv_stack {s : WfcState} (inv : MainInv s) (rest : List (Nat × Nat)) :
    MainInv { s with stack := rest } := inv

theorem wave_length_procDir (st : WfcState) (cell pattern d neighbor : Nat) :
    (procDir st cell pattern d neighbor).1.wave.length = st.wave.length := by
  unfold procDir
  refine foldl_proj (fun acc : WfcState × Bool => acc.1.wave.length) _ ?_ _ _
  intro acc a
  dsimp only
  by_cases h2 : acc.2 = true
  · rw [if_pos h2]
  · rw [if_neg h2]
    split
    · exact wave_length_ban acc.1 neighbor a
    · exact wave_length_ban acc.1 neighbor a

theorem MainInv_procDir {st : WfcState} (inv : MainInv st)
    (cell pattern d neighbor : Nat) :
    MainInv (procDir st cell pattern d neighbor).1 := by
  unfold procDir
  dsimp only
  generalize htb : List.filter _ (propGet st.propagator pattern d) = toBan
  cases toBan with
  | nil => exact inv
  | cons hd tl =>
    have hmem : hd ∈ List.filter
        (fun other => (st.wave.getD neighbor []).getD other false &&
          !((List.range (st.wave.getD cell []).length).any fun p =>
            (st.wave.getD cell []).getD p false &&
              (propGet st.propagator p d).contains other))
        (propGet st.propagator pattern d) := by
      rw [htb]
      exact List.mem_cons_self hd tl
    have hpred := (List.mem_filter.mp hmem).2
    rw [Bool.and_eq_true] at hpred
    have hnb : neighbor < st.wave.length :=
      waveGet_lt_cell (s := st) (c := neighbor) (p := hd) hpred.1
    have hstep : ∀ (acc : WfcState × Bool) (a : Nat),
        (MainInv acc.1 ∧ acc.1.wave.length = st.wave.length) →
        (MainInv ((fun (acc : WfcState × Bool) other =>
          if acc.2 = true then acc
          else
            let s1 := ban acc.1 neighbor other
            if s1.sumsone.getD neighbor 0 = 0 then
              ({ s1 with contradiction := true }, true)
            else (s1, false)) acc a).1 ∧
          ((fun (acc : WfcState × Bool) other =>
          if acc.2 = true then acc
          else
            let s1 := ban acc.1 neighbor other
            if s1.sumsone.getD neighbor 0 = 0 then
              ({ s1 with contradiction := true }, true)
            else (s1, false)) acc a).1.wave.length = st.wave.length) := by
      intro acc a ha
      dsimp only
      by_cases h2 : acc.2 = true
      · rwa [if_pos h2]
      · rw [if_neg h2]
        have hbi : MainInv (ban acc.1 neighbor a) := MainInv_ban ha.1 neighbor a
        have hbl : (ban acc.1 neighbor a).wave.length = st.wave.length :=
          (wave_length_ban acc.1 neighbor a).trans ha.2
      
        split
        · rename_i hz
          refine ⟨MainInv_setContra hbi ⟨neighbor, ?_, hz⟩, hbl⟩
          rw [hbl]
          exact hnb
        · exact ⟨hbi, hbl⟩
    exact (foldl_pres _ _ hstep (hd :: tl) (st, false) ⟨inv, rfl⟩).1

theorem MainInv_processEntry {s : WfcState} (inv : MainInv s)
    (cell pattern : Nat) : MainInv (processEntry s cell pattern).1 := by
  unfold processEntry
  refine (foldl_pres (fun acc : WfcState × Bool => MainInv acc.1) _ ?_ _ _ inv)
  intro acc a ha
  dsimp only
  by_cases h2 : acc.2 = true
  · rwa [if_pos h2]
  · rw [if_neg h2]
    split
    · exact ha
    · exact MainInv_procDir ha cell pattern a _

theorem MainInv_propagateFuel (fuel : Nat) :
    ∀ s : WfcState, MainInv s → MainInv (propagateFuel fuel s) := by
  induction fuel with
  | zero => intro s inv; exact inv
  | succ m ih =>
    intro s inv
    unfold propagateFuel
    split
    · exact inv
    · dsimp only
      split
      · exact MainInv_processEntry (MainInv_stack inv _) _ _
      · exact ih _ (MainInv_processEntry (MainInv_stack inv _) _ _)

theorem MainInv_propagate {s : WfcState} (inv : MainInv s) :
    MainInv (propagate s) := MainInv_propagateFuel _ s inv

theorem MainInv_banRow {s : WfcState} (inv : MainInv s)
    (cell : Nat) (allowed : List Bool) : MainInv (banRow s cell allowed) := by
  unfold banRow
  refine foldl_pres MainInv _ ?_ _ _ inv
  intro acc a ha
  dsimp only
  split
  · exact MainInv_ban ha cell a
  · exact ha

theorem MainInv_banRow_foldl (l : List Nat) (g : WfcState → Nat → Nat)
    (u : WfcState → List Bool) {t : WfcState} (inv : MainInv t) :
    MainInv (l.foldl (fun acc i => banRow acc (g acc i) (u acc)) t) := by
  refine foldl_pres MainInv _ ?_ _ _ inv
  intro acc a ha
  exact MainInv_banRow ha (g acc a) (u acc)

theorem MainInv_applyEdge {s : WfcState} (inv : MainInv s) :
    MainInv (applyEdgeConstraints s) := by
  unfold applyEdgeConstraints
  refine MainInv_propagate ?_
  by_cases hs : s.cfg.sides = true
  · by_cases hg : s.cfg.ground = true
    · simp only [hs, hg, if_true]
      exact MainInv_banRow_foldl _ _ _ (MainInv_banRow_foldl _ _ _
        (MainInv_banRow_foldl _ _ _ (MainInv_banRow_foldl _ _ _ inv)))
    · simp only [hs, hg, if_true, if_false]
      exact MainInv_banRow_foldl _ _ _ (MainInv_banRow_foldl _ _ _ inv)
  · by_cases hg : s.cfg.ground = true
    · simp only [hs, hg, if_true, if_false]
      exact MainInv_banRow_foldl _ _ _ (MainInv_banRow_foldl _ _ _ inv)
    · simp only [hs, hg, if_false]
      exact inv

theorem MainInv_mkInit (patterns : List Pattern) (weights : List ℚ)
    (topS bottomS leftS rightS : List Pattern) (cfg : WfcConfig) (lg : ℚ → ℚ)
    (hw : weights.length = patterns.length) :
    MainInv (mkInitState patterns weights topS bottomS leftS rightS cfg lg) := by
  unfold mkInitState
  dsimp only
  refine ⟨?_, ?_, ?_, rfl, ?_, hw, ?_⟩
  · simp [List.map_replicate, cnt_replicate]
  · rw [List.map_replicate, ← hw, wSum_replicate]
  · rw [List.map_replicate]
    have hz : (List.zipWith (· * ·) weights (weights.map lg)).length =
        patterns.length := by
      simp [List.length_zipWith, hw]
    rw [← hz, wSum_replicate]
  · intro row hmem
    rw [List.eq_of_mem_replicate hmem]
    exact List.length_replicate _ _
  · intro h
    exact absurd h (by simp)

theorem MainInv_mkReset {s : WfcState} (inv : MainInv s) :
    MainInv (mkResetState s) := by
  obtain ⟨_, _, _, h4, _, h6, _⟩ := inv
  unfold mkResetState
  dsimp only
  refine ⟨?_, ?_, ?_, h4, ?_, h6, ?_⟩
  · simp [List.map_replicate, cnt_replicate]
  · rw [List.map_replicate, ← h6, wSum_replicate]
  · rw [List.map_replicate]
    have hz : (List.zipWith (· * ·) s.weights s.logWeights).length =
        s.patterns.length := by
      simp [List.length_zipWith, h6, h4]
    rw [← hz, wSum_replicate]
  · intro row hmem
    rw [List.eq_of_mem_replicate hmem]
    exact List.length_replicate _ _
  · intro h
    exact absurd h (by simp)

theorem MainInv_wfcNew (sample : Sample) (cfg : WfcConfig) (lg : ℚ → ℚ) :
    MainInv (wfcNew sample cfg lg) := by
  unfold wfcNew wfcInitFrom
  refine MainInv_applyEdge (MainInv_mkInit _ _ _ _ _ _ _ _ ?_)
  simp [ExtractOut.weights, ExtractOut.patterns]

theorem MainInv_wfcReset {s : WfcState} (inv : MainInv s) :
    MainInv (wfcReset s) :=
  MainInv_applyEdge (MainInv_mkReset inv)

/-! ## Behaviour of `observe` -/

theorem observeLoop_cons_zero {s : WfcState} {c0 : Nat} (rest : List Nat)
    (rng : List ℚ) (minE : Option ℚ) (minCell : Option Nat)
    (h0 : s.sumsone.getD c0 0 = 0) :
    observeLoop s (c0 :: rest) rng minE minCell =
      (none, { s with contradiction := true }, rng) := by
  conv_lhs => unfold observeLoop
  dsimp only
  rw [if_pos h0]

theorem observeLoop_cons_one {s : WfcState} {c0 : Nat} (rest : List Nat)
    (rng : List ℚ) (minE : Option ℚ) (minCell : Option Nat)
    (h0 : ¬s.sumsone.getD c0 0 = 0) (h1 : s.sumsone.getD c0 0 = 1) :
    observeLoop s (c0 :: rest) rng minE minCell =
      observeLoop s rest rng minE minCell := by
  conv_lhs => unfold observeLoop
  dsimp only
  rw [if_neg h0, if_pos h1]

theorem observeLoop_cons_better {s : WfcState} {c0 : Nat} (rest : List Nat)
    (rng : List ℚ) (minE : Option ℚ) (minCell : Option Nat)
    (h0 : ¬s.sumsone.getD c0 0 = 0) (h1 : ¬s.sumsone.getD c0 0 = 1)
    (h2 : minLt (entropyFn s c0 + (nextRand rng).1 * (1 / 1000000)) minE = true) :
    observeLoop s (c0 :: rest) rng minE minCell =
      observeLoop s rest (nextRand rng).2
        (some (entropyFn s c0 + (nextRand rng).1 * (1 / 1000000))) (some c0) := by
  conv_lhs => unfold observeLoop
  dsimp only
  rw [if_neg h0, if_neg h1, if_pos h2]

theorem observeLoop_cons_worse {s : WfcState} {c0 : Nat} (rest : List Nat)
    (rng : List ℚ) (minE : Option ℚ) (minCell : Option Nat)
    (h0 : ¬s.sumsone.getD c0 0 = 0) (h1 : ¬s.sumsone.getD c0 0 = 1)
    (h2 : ¬minLt (entropyFn s c0 + (nextRand rng).1 * (1 / 1000000)) minE = true) :
    observeLoop s (c0 :: rest) rng minE minCell =
      observeLoop s rest (nextRand rng).2 minE minCell := by
  conv_lhs => unfold observeLoop
  dsimp only
  rw [if_neg h0, if_neg h1, if_neg h2]

theorem observeLoop_state (s : WfcState) (cells : List Nat)
    (hcells : ∀ c ∈ cells, c < s.wave.length) :
    ∀ (rng : List ℚ) (minE : Option ℚ) (minCell : Option Nat),
    (observeLoop s cells rng minE minCell).2.1 = s ∨
      ((observeLoop s cells rng minE minCell).2.1 =
          { s with contradiction := true } ∧
        (∃ c, c < s.wave.length ∧ s.sumsone.getD c 0 = 0) ∧
        (observeLoop s cells rng minE minCell).1 = none) := by
  induction cells with
  | nil => intro rng minE minCell; exact Or.inl rfl
  | cons c0 rest ih =>
    intro rng minE minCell
    have hc : c0 < s.wave.length := hcells c0 (List.mem_cons_self c0 rest)
    have hrest : ∀ c2 ∈ rest, c2 < s.wave.length := fun c2 h2 =>
      hcells c2 (List.mem_cons_of_mem c0 h2)
    by_cases h0 : s.sumsone.getD c0 0 = 0
    · rw [observeLoop_cons_zero rest rng minE minCell h0]
      exact Or.inr ⟨rfl, ⟨c0, hc, h0⟩, rfl⟩
    · by_cases h1 : s.sumsone.getD c0 0 = 1
      · rw [observeLoop_cons_one rest rng minE minCell h0 h1]
        exact ih hrest rng minE minCell
      · by_cases h2 : minLt (entropyFn s c0 + (nextRand rng).1 * (1 / 1000000))
            minE = true
        · rw [observeLoop_cons_better rest rng minE minCell h0 h1 h2]
          exact ih hrest _ _ _
        · rw [observeLoop_cons_worse rest rng minE minCell h0 h1 h2]
          exact ih hrest _ _ _

theorem observeLoop_some (s : WfcState) (cells : List Nat) :
    ∀ (rng : List ℚ) (minE : Option ℚ) (minCell : Option Nat) (c : Nat),
    (observeLoop s cells rng minE minCell).1 = some c →
    (observeLoop s cells rng minE minCell).2.1 = s ∧
      (minCell = some c ∨ (c ∈ cells ∧ 2 ≤ s.sumsone.getD c 0)) := by
  induction cells with
  | nil =>
    intro rng minE minCell c h
    exact ⟨rfl, Or.inl h⟩
  | cons c0 rest ih =>
    intro rng minE minCell c h
    by_cases h0 : s.sumsone.getD c0 0 = 0
    · rw [observeLoop_cons_zero rest rng minE minCell h0] at h
      exact absurd h (by simp)
    · by_cases h1 : s.sumsone.getD c0 0 = 1
      · rw [observeLoop_cons_one rest rng minE minCell h0 h1] at h ⊢
        obtain ⟨g1, g2⟩ := ih _ _ _ c h
        refine ⟨g1, ?_⟩
        rcases g2 with g2 | g2
        · exact Or.inl g2
        · exact Or.inr ⟨List.mem_cons_of_mem c0 g2.1, g2.2⟩
      · by_cases h2 : minLt (entropyFn s c0 + (nextRand rng).1 * (1 / 1000000))
            minE = true
        · rw [observeLoop_cons_better rest rng minE minCell h0 h1 h2] at h ⊢
          obtain ⟨g1, g2⟩ := ih _ _ _ c h
          refine ⟨g1, ?_⟩
          rcases g2 with g2 | g2
          · have hcc : c0 = c := by simpa using g2
            subst hcc
            refine Or.inr ⟨List.mem_cons_self c0 rest, ?_⟩
            omega
          · exact Or.inr ⟨List.mem_cons_of_mem c0 g2.1, g2.2⟩
        · rw [observeLoop_cons_worse rest rng minE minCell h0 h1 h2] at h ⊢
          obtain ⟨g1, g2⟩ := ih _ _ _ c h
          refine ⟨g1, ?_⟩
          rcases g2 with g2 | g2
          · exact Or.inl g2
          · exact Or.inr ⟨List.mem_cons_of_mem c0 g2.1, g2.2⟩

theorem observeFn_some {s : WfcState} {rng : List ℚ} {c : Nat}
    (h : (observeFn s rng).1 = some c) :
    (observeFn s rng).2.1 = s ∧ c < s.wave.length ∧ 2 ≤ s.sumsone.getD c 0 := by
  obtain ⟨h1, h2⟩ := observeLoop_some s (List.range s.wave.length) rng none none c h
  rcases h2 with h2 | h2
  · exact absurd h2 (by simp)
  · exact ⟨h1, List.mem_range.mp h2.1, h2.2⟩

theorem MainInv_observeFn {s : WfcState} (inv : MainInv s) (rng : List ℚ) :
    MainInv (observeFn s rng).2.1 := by
  unfold observeFn
  rcases observeLoop_state s (List.range s.wave.length)
      (fun c h => List.mem_range.mp h) rng none none with h | ⟨h1, h2, _⟩
  · rw [h]
    exact inv
  · rw [h1]
    exact MainInv_setContra inv h2

theorem getD_mem {α : Type _} (l : List α) (i : Nat) (d : α)
    (h : i < l.length) : l.getD i d ∈ l := by
  rw [List.getD_eq_getElem l d h]
  exact List.getElem_mem h

theorem collapsePossible_nil_cnt {s : WfcState} (inv : MainInv s) {cell : Nat}
    (h : collapsePossible s cell = []) :
    s.sumsone.getD cell 0 = 0 := by
  have hall : ∀ i ∈ List.range s.patterns.length, ¬waveGet s cell i = true := by
    have := List.filter_eq_nil_iff.mp h
    intro i hi hw
    exact absurd hw (by simpa using this i hi)
  rw [inv.1, getD_map_rel cnt s.wave cell [] 0 rfl]
  by_cases hc : cell < s.wave.length
  · have hrowlen : (s.wave.getD cell []).length = s.patterns.length :=
      inv.2.2.2.2.1 _ (getD_mem s.wave cell [] hc)
    refine cnt_zero_of_false ?_
    intro p hp
    have h2 := hall p (List.mem_range.mpr (hrowlen ▸ hp))
    unfold waveGet at h2
    simpa using h2
  · rw [List.getD_eq_default _ _ (by omega)]
    rfl

theorem MainInv_collapseFn {s : WfcState} (inv : MainInv s) (cell : Nat)
    (hc : cell < s.wave.length) (rng : List ℚ) :
    MainInv (collapseFn s cell rng).1 := by
  unfold collapseFn
  dsimp only
  split
  · rename_i hemp
    have hnil : collapsePossible s cell = [] := by
      simpa [List.isEmpty_iff] using hemp
    exact MainInv_setContra inv ⟨cell, hc, collapsePossible_nil_cnt inv hnil⟩
  · refine foldl_pres (fun t => MainInv t) _ ?_ _ _ inv
    intro acc a ha
    dsimp only
    split
    · exact MainInv_ban ha cell a
    · exact ha

theorem MainInv_stepFn {s : WfcState} (inv : MainInv s) (rng : List ℚ) :
    MainInv (stepFn s rng).2.1 := by
  unfold stepFn
  split
  · exact inv
  · split
    · rename_i s1 rng1 heq
      have hobs := MainInv_observeFn inv rng
      rw [heq] at hobs
      split
      · exact hobs
      · exact hobs
    · rename_i cell s1 rng1 heq
      obtain ⟨hs1, hcell, _⟩ :=
        @observeFn_some s rng cell (by rw [heq])
      rw [heq] at hs1
      have hs2 : s1 = s := hs1
      subst hs2
      dsimp only
      have hstate : MainInv
          { s1 with lastCollapsed := some (cell % s1.cfg.outputWidth, cell / s1.cfg.outputWidth) } :=
        inv
      exact MainInv_propagate (MainInv_collapseFn hstate cell hcell rng1)

theorem MainInv_reachable {s : WfcState} (h : Reachable s) : MainInv s := by
  obtain ⟨sample, cfg, lg, hr⟩ := h
  induction hr with
  | refl => exact MainInv_wfcNew sample cfg lg
  | step t rng _ ih => exact MainInv_stepFn ih rng
  | reset t _ ih => exact MainInv_wfcReset ih

/-! ## Concrete inputs used by witnesses and counterexamples -/

/-- Stand-in for `f64::ln` in concrete runs; the concrete scenarios below
are chosen so that no compared quantity depends on its values. -/
def lgZero : ℚ → ℚ := fun _ => 0

/-- A 1 x 3 sample with three distinct colors: its top edge set is
disjoint from its bottom edge set. -/
def sampleTri : Sample := ⟨1, 3, [(1, 1, 1), (2, 2, 2), (3, 3, 3)]⟩

/-- 1 x 1 patterns, 1 x 1 output, `ground = true`: the single output cell
is both the top and the bottom row. -/
def cfgGroundOne : WfcConfig := ⟨1, 1, 1, true, false, false, true, false⟩

/-- The solver state after one `step()` on the `sampleTri` solver. -/
def c2State : WfcState := (stepFn (wfcNew sampleTri cfgGroundOne lgZero) []).2.1

/-! ## C1 -/

/-- C1: at every reachable state of the solver (after `Wfc::new` and any
sequence of `step`, `run` — which iterates `step` — and `reset` calls),
for every cell, `sumsone[cell]` is the number of `true` entries of that
cell's wave row, `sumweights[cell]` is the sum of `weights[p]` over the
allowed patterns, and `sumweightlogweights[cell]` is the sum of
`weights[p] * lg (weights[p])` over the allowed patterns, where `lg` is
the solver's logarithm function (`f64::ln` in the source). -/
theorem c1_cell_statistics (s : WfcState) (h : Reachable s) :
    ∀ cell : Nat,
      s.sumsone.getD cell 0 = cnt (s.wave.getD cell []) ∧
      s.sumweights.getD cell 0 = wSum (s.wave.getD cell []) s.weights ∧
      s.sumweightlogweights.getD cell 0 =
        wlSum s.lg (s.wave.getD cell []) s.weights := by
  obtain ⟨h1, h2, h3, h4, _, _, _⟩ := MainInv_reachable h
  intro cell
  refine ⟨?_, ?_, ?_⟩
  · rw [h1, getD_map_rel cnt s.wave cell [] 0 rfl]
  · rw [h2, getD_map_rel (fun row => wSum row s.weights) s.wave cell [] 0 rfl]
  · rw [h3, getD_map_rel
      (fun row => wSum row (List.zipWith (· * ·) s.weights s.logWeights))
      s.wave cell [] 0 rfl, h4, wSum_zip_lg]

/-- Witness for C1 at a concrete reachable state. -/
theorem c1_cell_statistics_witness :
    (wfcNew sampleTri cfgGroundOne lgZero).sumsone.getD 0 0 =
      cnt ((wfcNew sampleTri cfgGroundOne lgZero).wave.getD 0 []) ∧
    (wfcNew sampleTri cfgGroundOne lgZero).sumweights.getD 0 0 =
      wSum ((wfcNew sampleTri cfgGroundOne lgZero).wave.getD 0 [])
        (wfcNew sampleTri cfgGroundOne lgZero).weights ∧
    (wfcNew sampleTri cfgGroundOne lgZero).sumweightlogweights.getD 0 0 =
      wlSum (wfcNew sampleTri cfgGroundOne lgZero).lg
        ((wfcNew sampleTri cfgGroundOne lgZero).wave.getD 0 [])
        (wfcNew sampleTri cfgGroundOne lgZero).weights :=
  c1_cell_statistics (wfcNew sampleTri cfgGroundOne lgZero)
    ⟨sampleTri, cfgGroundOne, lgZero, ReachableFrom.refl⟩ 0

/-! ## C2 -/

theorem stepFn_frozen {s : WfcState} (h : s.contradiction = true)
    (rng : List ℚ) : stepFn s rng = (false, s, rng) := by
  unfold stepFn
  rw [if_pos (by simp [h])]

/-- C2 counterexample: the claim's biconditional `(∀ cell, sumsone > 0) ⟺
contradiction = false` fails at a reachable state.  On `sampleTri` with
`ground = true` and a 1 x 1 output, `apply_edge_constraints` inside
`Wfc::new` empties the only cell (its top bans leave only the top
pattern, its bottom bans remove it) without raising the flag, because
`ban` does not check for zero: right after construction the cell's
`sumsone` is 0 while `contradiction` is still false. -/
theorem c2_counterexample :
    (wfcNew sampleTri cfgGroundOne lgZero).contradiction = false ∧
    0 < (wfcNew sampleTri cfgGroundOne lgZero).wave.length ∧
    (wfcNew sampleTri cfgGroundOne lgZero).sumsone.getD 0 0 = 0 := by
  refine ⟨?_, ?_, ?_⟩
  · decide
  · decide
  · decide

/-- C2 amended: at every reachable state, a raised `contradiction` flag
implies some cell's `sumsone` is 0, and once the flag is raised every
`step()` returns `false` and leaves the state (wave and all per-cell
statistics included) unchanged.  The claim's converse direction — that a
cell reaching `sumsone = 0` immediately raises the flag — fails during
`apply_edge_constraints` (see the counterexample); the observer raises
the flag on the following `step()`. -/
theorem c2_contradiction_amended (s : WfcState) (h : Reachable s) :
    (s.contradiction = true →
      ∃ c, c < s.wave.length ∧ s.sumsone.getD c 0 = 0) ∧
    (s.contradiction = true → ∀ rng : List ℚ, stepFn s rng = (false, s, rng)) :=
  ⟨(MainInv_reachable h).2.2.2.2.2.2, fun hc rng => stepFn_frozen hc rng⟩

/-- Witness for C2 at a concrete reachable contradicted state. -/
theorem c2_contradiction_amended_witness :
    (∃ c, c < c2State.wave.length ∧ c2State.sumsone.getD c 0 = 0) ∧
      stepFn c2State [] = (false, c2State, []) := by
  have hr : Reachable c2State :=
    ⟨sampleTri, cfgGroundOne, lgZero, ReachableFrom.step _ [] ReachableFrom.refl⟩
  have hc : c2State.contradiction = true := by decide
  obtain ⟨ha, hb⟩ := c2_contradiction_amended c2State hr
  exact ⟨ha hc, hb hc []⟩

/-! ## C3 -/

/-- The empty 0 x 0 sample. -/
def sampleEmpty : Sample := ⟨0, 0, []⟩

/-- A 2 x 2 one-color sample. -/
def sampleTwo : Sample := ⟨2, 2, [(1, 1, 1), (1, 1, 1), (1, 1, 1), (1, 1, 1)]⟩

/-- A 1 x 1 one-color sample. -/
def sampleOne : Sample := ⟨1, 1, [(5, 5, 5)]⟩

/-- `pattern_size = 3` with `periodic_input = false` and a 2 x 2 output. -/
def cfgNonPeriodic3 : WfcConfig := ⟨3, 2, 2, false, false, true, false, false⟩

/-- `output_width = 0`. -/
def cfgZeroOut : WfcConfig := ⟨1, 0, 1, true, false, false, false, false⟩

/-- C3: `Wfc::new` is total (the source returns `Self`, with no `Result`,
panic or validation on these paths) and on each degenerate input it
returns a constructed solver instead of rejecting it: on the empty
sample and on a sample smaller than the pattern size with
`periodic_input = false`, extraction yields zero patterns and the solver
is built with `patterns = []`; with a zero output dimension the solver
is built with an empty wave.  The core therefore does enter a state with
zero patterns, contradicting the claim. -/
theorem c3_degenerate_accepted :
    (wfcNew sampleEmpty cfgNonPeriodic3 lgZero).patterns = [] ∧
    (wfcNew sampleEmpty cfgNonPeriodic3 lgZero).wave = List.replicate 4 [] ∧
    (wfcNew sampleTwo cfgNonPeriodic3 lgZero).patterns = [] ∧
    (wfcNew sampleOne cfgZeroOut lgZero).wave = [] := by
  refine ⟨?_, ?_, ?_, ?_⟩
  · decide
  · decide
  · decide
  · decide

/-! ## C4 -/

theorem ite_decide_true {c : Prop} [Decidable c] {P : Prop} [Decidable P] :
    ((if c then decide P else true) = true) ↔ (c → P) := by
  by_cases hc : c
  · simp [hc]
  · simp [hc]

theorem getD_map_range {β : Type _} (f : Nat → β) (m i : Nat) (d : β)
    (h : i < m) : ((List.range m).map f).getD i d = f i := by
  rw [List.getD_eq_getElem _ d (by simpa using h)]
  simp

theorem propGet_build (patterns : List Pattern) (n i d : Nat)
    (hi : i < patterns.length) (hd : d < 4) :
    propGet (buildPropagator patterns n) i d =
      (List.range patterns.length).filter fun j =>
        patternsAgree (patterns.getD i ⟨0, []⟩) (patterns.getD j ⟨0, []⟩)
          (dirDx d) (dirDy d) n := by
  unfold buildPropagator propGet
  rw [getD_map_range _ patterns.length i [] hi, getD_map_range _ 4 d [] hd]

theorem mem_propGet_build (patterns : List Pattern) (n i j d : Nat)
    (hi : i < patterns.length) (hd : d < 4) :
    j ∈ propGet (buildPropagator patterns n) i d ↔
      j < patterns.length ∧
        patternsAgree (patterns.getD i ⟨0, []⟩) (patterns.getD j ⟨0, []⟩)
          (dirDx d) (dirDy d) n = true := by
  rw [propGet_build patterns n i d hi hd, List.mem_filter, List.mem_range]

theorem agree_iff (p q : Pattern) (dx dy : Int) (n : Nat) :
    patternsAgree p q dx dy n = true ↔
      ∀ y ∈ List.range n, ∀ x ∈ List.range n,
        ((max dx 0).toNat ≤ x ∧ x < (n + min dx 0).toNat ∧
         (max dy 0).toNat ≤ y ∧ y < (n + min dy 0).toNat) →
        p.get x y = q.get ((x : Int) - dx).toNat ((y : Int) - dy).toNat := by
  unfold patternsAgree
  simp only [List.all_eq_true, ite_decide_true]

theorem agree_transpose_lr (p q : Pattern) (n : Nat) :
    patternsAgree p q 1 0 n = true ↔ patternsAgree q p (-1) 0 n = true := by
  rw [agree_iff, agree_iff]
  constructor
  · intro h y hy x hx hc
    rw [List.mem_range] at hy hx
    have hxx : x + 1 < n := by omega
    have hh := h y (List.mem_range.mpr hy) (x + 1) (List.mem_range.mpr hxx)
      (by constructor
          · omega
          · constructor
            · omega
            · constructor
              · omega
              · omega)
    have e1 : (((x + 1 : Nat) : Int) - 1).toNat = x := by omega
    have e2 : ((y : Nat) : Int).toNat = y := by omega
    rw [e1] at hh
    have e3 : (((x : Nat) : Int) - -1).toNat = x + 1 := by omega
    rw [e3]
    have e4 : ((y : Int) - 0).toNat = y := by omega
    rw [e4] at hh ⊢
    exact hh.symm
  · intro h y hy x hx hc
    rw [List.mem_range] at hy hx
    obtain ⟨hc1, hc2, _, _⟩ := hc
    have hx1 : (1 : Nat) ≤ x := by
      have : ((1 : Int)).toNat = 1 := rfl
      omega
    have hxx : x - 1 < n := by omega
    have hh := h y (List.mem_range.mpr hy) (x - 1) (List.mem_range.mpr hxx)
      (by constructor
          · omega
          · constructor
            · omega
            · constructor
              · omega
              · omega)
    have e1 : (((x - 1 : Nat) : Int) - -1).toNat = x := by omega
    rw [e1] at hh
    have e2 : (((x : Nat) : Int) - 1).toNat = x - 1 := by omega
    rw [e2]
    have e4 : ((y : Int) - 0).toNat = y := by omega
    rw [e4] at hh ⊢
    exact hh.symm

theorem agree_transpose_du (p q : Pattern) (n : Nat) :
    patternsAgree p q 0 1 n = true ↔ patternsAgree q p 0 (-1) n = true := by
  rw [agree_iff, agree_iff]
  constructor
  · intro h y hy x hx hc
    rw [List.mem_range] at hy hx
    have hyy : y + 1 < n := by omega
    have hh := h (y + 1) (List.mem_range.mpr hyy) x (List.mem_range.mpr hx)
      (by constructor
          · omega
          · constructor
            · omega
            · constructor
              · omega
              · omega)
    have e1 : (((y + 1 : Nat) : Int) - 1).toNat = y := by omega
    rw [e1] at hh
    have e3 : (((y : Nat) : Int) - -1).toNat = y + 1 := by omega
    rw [e3]
    have e4 : ((x : Int) - 0).toNat = x := by omega
    rw [e4] at hh ⊢
    exact hh.symm
  · intro h y hy x hx hc
    rw [List.mem_range] at hy hx
    obtain ⟨_, _, hc3, hc4⟩ := hc
    have hy1 : (1 : Nat) ≤ y := by
      have : ((1 : Int)).toNat = 1 := rfl
      omega
    have hyy : y - 1 < n := by omega
    have hh := h (y - 1) (List.mem_range.mpr hyy) x (List.mem_range.mpr hx)
      (by constructor
          · omega
          · constructor
            · omega
            · constructor
              · omega
              · omega)
    have e1 : (((y - 1 : Nat) : Int) - -1).toNat = y := by omega
    rw [e1] at hh
    have e2 : (((y : Nat) : Int) - 1).toNat = y - 1 := by omega
    rw [e2]
    have e4 : ((x : Int) - 0).toNat = x := by omega
    rw [e4] at hh ⊢
    exact hh.symm

/-- C4: for the propagator built from any pattern list and pattern size
`n`: `i ∈ propagator[i][d]` iff pattern `i` agrees with itself at
direction `d`'s offset, `j ∈ propagator[i][Right]` iff
`i ∈ propagator[j][Left]`, and `j ∈ propagator[i][Down]` iff
`i ∈ propagator[j][Up]` (directions encoded Right = 0, Down = 1,
Left = 2, Up = 3 as in the source). -/
theorem c4_propagator_symmetry (patterns : List Pattern) (n i j d : Nat)
    (hi : i < patterns.length) (hj : j < patterns.length) (hd : d < 4) :
    (i ∈ propGet (buildPropagator patterns n) i d ↔
      patternsAgree (patterns.getD i ⟨0, []⟩) (patterns.getD i ⟨0, []⟩)
        (dirDx d) (dirDy d) n = true) ∧
    (j ∈ propGet (buildPropagator patterns n) i 0 ↔
      i ∈ propGet (buildPropagator patterns n) j 2) ∧
    (j ∈ propGet (buildPropagator patterns n) i 1 ↔
      i ∈ propGet (buildPropagator patterns n) j 3) := by
  refine ⟨?_, ?_, ?_⟩
  · rw [mem_propGet_build patterns n i i d hi hd]
    exact ⟨fun h => h.2, fun h => ⟨hi, h⟩⟩
  · rw [mem_propGet_build patterns n i j 0 hi (by omega),
        mem_propGet_build patterns n j i 2 hj (by omega)]
    rw [show dirDx 0 = 1 from rfl, show dirDy 0 = 0 from rfl,
        show dirDx 2 = -1 from rfl, show dirDy 2 = 0 from rfl]
    constructor
    · intro hh
      exact ⟨hi, (agree_transpose_lr _ _ n).mp hh.2⟩
    · intro hh
      exact ⟨hj, (agree_transpose_lr _ _ n).mpr hh.2⟩
  · rw [mem_propGet_build patterns n i j 1 hi (by omega),
        mem_propGet_build patterns n j i 3 hj (by omega)]
    rw [show dirDx 1 = 0 from rfl, show dirDy 1 = 1 from rfl,
        show dirDx 3 = 0 from rfl, show dirDy 3 = -1 from rfl]
    constructor
    · intro hh
      exact ⟨hi, (agree_transpose_du _ _ n).mp hh.2⟩
    · intro hh
      exact ⟨hj, (agree_transpose_du _ _ n).mpr hh.2⟩

/-- Two distinct 1 x 1 patterns used in concrete scenarios. -/
def patA : Pattern := ⟨1, [(1, 1, 1)]⟩

def patB : Pattern := ⟨1, [(2, 2, 2)]⟩

/-- Witness for C4 on a concrete two-pattern propagator. -/
theorem c4_propagator_symmetry_witness :
    (0 ∈ propGet (buildPropagator [patA, patB] 1) 0 0 ↔
      patternsAgree ([patA, patB].getD 0 ⟨0, []⟩) ([patA, patB].getD 0 ⟨0, []⟩)
        (dirDx 0) (dirDy 0) 1 = true) ∧
    (1 ∈ propGet (buildPropagator [patA, patB] 1) 0 0 ↔
      0 ∈ propGet (buildPropagator [patA, patB] 1) 1 2) ∧
    (1 ∈ propGet (buildPropagator [patA, patB] 1) 0 1 ↔
      0 ∈ propGet (buildPropagator [patA, patB] 1) 1 3) :=
  c4_propagator_symmetry [patA, patB] 1 0 1 0 (by decide) (by decide) (by decide)

/-! ## C5 -/

theorem foldl_waveLe {F : WfcState → Nat → WfcState}
    (hF : ∀ acc i, WaveLe (F acc i) acc) :
    ∀ (L : List Nat) (t : WfcState), WaveLe (L.foldl F t) t := by
  intro L t
  refine foldl_pres (fun acc => WaveLe acc t) _ ?_ _ _ (waveLe_refl t)
  intro acc a hacc
  exact waveLe_trans (hF acc a) hacc

theorem condban_waveLe (cell : Nat) (allowed : List Bool) :
    ∀ (acc : WfcState) (q : Nat),
    WaveLe (if waveGet acc cell q = true ∧ allowed.getD q false = false then
      ban acc cell q else acc) acc := by
  intro acc q
  split
  · exact waveLe_ban acc cell q
  · exact waveLe_refl acc

theorem condban_fold_post (cell : Nat) (allowed : List Bool) :
    ∀ (L : List Nat) (t : WfcState) (p : Nat), p ∈ L →
    waveGet (L.foldl (fun acc q =>
      if waveGet acc cell q = true ∧ allowed.getD q false = false then
        ban acc cell q
      else acc) t) cell p = true →
    allowed.getD p false = true := by
  intro L
  induction L with
  | nil =>
    intro t p hp
    exact absurd hp (by simp)
  | cons a rest ih =>
    intro t p hp hres
    rcases List.mem_cons.mp hp with he | hmem
    · subst he
      cases hal : allowed.getD p false
      · exfalso
        have hle := foldl_waveLe (condban_waveLe cell allowed) rest
          (if waveGet t cell p = true ∧ allowed.getD p false = false then
            ban t cell p else t)
        have h1 := hle cell p hres
        by_cases hw : waveGet t cell p = true
        · rw [if_pos ⟨hw, hal⟩, waveGet_ban, if_pos ⟨rfl, rfl⟩] at h1
          exact absurd h1 (by simp)
        · rw [if_neg (fun hcond => hw hcond.1)] at h1
          exact hw h1
      · rfl
    · exact ih _ p hmem hres

theorem banRow_post {s : WfcState} (inv : MainInv s) (cell : Nat)
    (allowed : List Bool) :
    ∀ p, waveGet (banRow s cell allowed) cell p = true →
      allowed.getD p false = true := by
  intro p hres
  have hinvres : MainInv (banRow s cell allowed) := MainInv_banRow inv cell allowed
  have hcell : cell < (banRow s cell allowed).wave.length := waveGet_lt_cell hres
  have hrow : p < ((banRow s cell allowed).wave.getD cell []).length :=
    waveGet_lt_row hres
  have hlen : ((banRow s cell allowed).wave.getD cell []).length =
      (banRow s cell allowed).patterns.length :=
    hinvres.2.2.2.2.1 _ (getD_mem _ _ _ hcell)
  have hpat : (banRow s cell allowed).patterns = s.patterns :=
    congrArg BaseData.patterns (baseOf_banRow s cell allowed)
  have hplt : p < s.patterns.length := by
    rw [← hpat]
    omega
  exact condban_fold_post cell allowed (List.range s.patterns.length) s p
    (List.mem_range.mpr hplt) hres

theorem cellsFold_post (F : WfcState → Nat → WfcState) (g : Nat → Nat)
    (sel : BaseData → List Bool)
    (hF1 : ∀ acc i, MainInv acc → MainInv (F acc i))
    (hF2 : ∀ acc i, WaveLe (F acc i) acc)
    (hF3 : ∀ acc i, baseOf (F acc i) = baseOf acc)
    (hpost : ∀ acc i, MainInv acc → ∀ p, waveGet (F acc i) (g i) p = true →
      (sel (baseOf acc)).getD p false = true) :
    ∀ (L : List Nat) (t : WfcState), MainInv t → ∀ i ∈ L, ∀ p,
      waveGet (L.foldl F t) (g i) p = true →
      (sel (baseOf t)).getD p false = true := by
  intro L
  induction L with
  | nil =>
    intro t _ i hi
    exact absurd hi (by simp)
  | cons a rest ih =>
    intro t ht i hi p hres
    rcases List.mem_cons.mp hi with he | hmem
    · subst he
      have hle := foldl_waveLe hF2 rest (F t i)
      exact hpost t i ht p (hle (g i) p hres)
    · have := ih (F t a) (hF1 t a ht) i hmem p hres
      rwa [hF3 t a] at this

theorem applyEdge_ground_post {s0 : WfcState} (inv : MainInv s0)
    (hg : s0.cfg.ground = true) :
    (∀ x, x < s0.cfg.outputWidth → ∀ p,
      waveGet (applyEdgeConstraints s0) x p = true →
      s0.topPatterns.getD p false = true) ∧
    (∀ x, x < s0.cfg.outputWidth → ∀ p,
      waveGet (applyEdgeConstraints s0)
        ((s0.cfg.outputHeight - 1) * s0.cfg.outputWidth + x) p = true →
      s0.bottomPatterns.getD p false = true) := by
  unfold applyEdgeConstraints
  dsimp only
  rw [if_pos hg]
  set sTop := (List.range s0.cfg.outputWidth).foldl
    (fun acc x => banRow acc x acc.topPatterns) s0 with hsTop
  set sBot := (List.range s0.cfg.outputWidth).foldl
    (fun acc x => banRow acc
      ((s0.cfg.outputHeight - 1) * s0.cfg.outputWidth + x) acc.bottomPatterns)
    sTop with hsBot
  have hinvTop : MainInv sTop := MainInv_banRow_foldl _ _ _ inv
  have hinvBot : MainInv sBot := MainInv_banRow_foldl _ _ _ hinvTop
  have hbaseTop : baseOf sTop = baseOf s0 := baseOf_banRow_foldl _ _ _ _
  have htopProp : ∀ i ∈ List.range s0.cfg.outputWidth, ∀ p,
      waveGet sTop i p = true → s0.topPatterns.getD p false = true := by
    intro i hi p hw
    exact cellsFold_post (fun acc x => banRow acc x acc.topPatterns)
      (fun i => i) BaseData.topPatterns
      (fun acc i hh => MainInv_banRow hh i _)
      (fun acc i => waveLe_banRow acc i _)
      (fun acc i => baseOf_banRow acc i _)
      (fun acc i hh p hw2 => banRow_post hh i _ p hw2)
      (List.range s0.cfg.outputWidth) s0 inv i hi p hw
  have hbotProp : ∀ i ∈ List.range s0.cfg.outputWidth, ∀ p,
      waveGet sBot ((s0.cfg.outputHeight - 1) * s0.cfg.outputWidth + i) p = true →
      s0.bottomPatterns.getD p false = true := by
    intro i hi p hw
    have hprop := cellsFold_post
      (fun acc x => banRow acc
        ((s0.cfg.outputHeight - 1) * s0.cfg.outputWidth + x) acc.bottomPatterns)
      (fun i => (s0.cfg.outputHeight - 1) * s0.cfg.outputWidth + i)
      BaseData.bottomPatterns
      (fun acc i hh => MainInv_banRow hh _ _)
      (fun acc i => waveLe_banRow acc _ _)
      (fun acc i => baseOf_banRow acc _ _)
      (fun acc i hh p hw2 => banRow_post hh _ _ p hw2)
      (List.range s0.cfg.outputWidth) sTop hinvTop i hi p hw
    rwa [hbaseTop] at hprop
  have hleBotTop : WaveLe sBot sTop := foldl_waveLe
    (fun acc i => waveLe_banRow acc _ _) _ _
  by_cases hsd : s0.cfg.sides = true
  · rw [if_pos hsd]
    set sL := (List.range s0.cfg.outputHeight).foldl
      (fun acc y => banRow acc (y * s0.cfg.outputWidth) acc.leftPatterns)
      sBot with hsL
    set sR := (List.range s0.cfg.outputHeight).foldl
      (fun acc y => banRow acc
        (y * s0.cfg.outputWidth + (s0.cfg.outputWidth - 1)) acc.rightPatterns)
      sL with hsR
    have hleL : WaveLe sL sBot := foldl_waveLe
      (fun acc i => waveLe_banRow acc _ _) _ _
    have hleR : WaveLe sR sL := foldl_waveLe
      (fun acc i => waveLe_banRow acc _ _) _ _
    have hleFinal : WaveLe (propagate sR) sBot :=
      waveLe_trans (waveLe_propagate sR) (waveLe_trans hleR hleL)
    constructor
    · intro x hx p hw
      exact htopProp x (List.mem_range.mpr hx) p
        (hleBotTop x p (hleFinal x p hw))
    · intro x hx p hw
      exact hbotProp x (List.mem_range.mpr hx) p (hleFinal _ p hw)
  · rw [if_neg hsd]
    have hleFinal : WaveLe (propagate sBot) sBot := waveLe_propagate sBot
    constructor
    · intro x hx p hw
      exact htopProp x (List.mem_range.mpr hx) p
        (hleBotTop x p (hleFinal x p hw))
    · intro x hx p hw
      exact hbotProp x (List.mem_range.mpr hx) p (hleFinal _ p hw)

/-- C5: with `ground = true` (and at least one extracted pattern),
immediately after `Wfc::new` every pattern still allowed in a top-row
cell has `top_patterns[p] = true` and every pattern still allowed in a
bottom-row cell has `bottom_patterns[p] = true`, where `top_patterns` /
`bottom_patterns` are exactly the membership vectors of the extraction's
`top_set` / `bottom_set` (first two conjuncts). -/
theorem c5_ground_edge (sample : Sample) (cfg : WfcConfig) (lg : ℚ → ℚ)
    (hg : cfg.ground = true)
    (_hne : (wfcNew sample cfg lg).patterns ≠ []) :
    ((wfcNew sample cfg lg).topPatterns =
      (extractPatterns sample cfg).patterns.map
        (fun q => decide (q ∈ (extractPatterns sample cfg).topSet))) ∧
    ((wfcNew sample cfg lg).bottomPatterns =
      (extractPatterns sample cfg).patterns.map
        (fun q => decide (q ∈ (extractPatterns sample cfg).bottomSet))) ∧
    (∀ x, x < cfg.outputWidth → ∀ p,
      waveGet (wfcNew sample cfg lg) x p = true →
      (wfcNew sample cfg lg).topPatterns.getD p false = true) ∧
    (∀ x, x < cfg.outputWidth → ∀ p,
      waveGet (wfcNew sample cfg lg)
        ((cfg.outputHeight - 1) * cfg.outputWidth + x) p = true →
      (wfcNew sample cfg lg).bottomPatterns.getD p false = true) := by
  unfold wfcNew wfcInitFrom
  dsimp only
  set e := extractPatterns sample cfg with he
  set s0 := mkInitState e.patterns e.weights e.topSet e.bottomSet e.leftSet
    e.rightSet cfg lg with hs0
  have hinv : MainInv s0 := MainInv_mkInit _ _ _ _ _ _ _ _
    (by simp [ExtractOut.weights, ExtractOut.patterns])
  have hg0 : s0.cfg.ground = true := hg
  have hpost := applyEdge_ground_post hinv hg0
  have htopEq : (applyEdgeConstraints s0).topPatterns = s0.topPatterns :=
    congrArg BaseData.topPatterns (baseOf_applyEdge s0)
  have hbotEq : (applyEdgeConstraints s0).bottomPatterns = s0.bottomPatterns :=
    congrArg BaseData.bottomPatterns (baseOf_applyEdge s0)
  refine ⟨?_, ?_, ?_, ?_⟩
  · rw [htopEq]
    rfl
  · rw [hbotEq]
    rfl
  · intro x hx p hw
    rw [htopEq]
    exact hpost.1 x hx p hw
  · intro x hx p hw
    rw [hbotEq]
    exact hpost.2 x hx p hw

/-- Witness for C5 on the concrete ground-constrained solver. -/
theorem c5_ground_edge_witness :
    ((wfcNew sampleTri cfgGroundOne lgZero).topPatterns =
      (extractPatterns sampleTri cfgGroundOne).patterns.map
        (fun q => decide (q ∈ (extractPatterns sampleTri cfgGroundOne).topSet))) ∧
    ((wfcNew sampleTri cfgGroundOne lgZero).bottomPatterns =
      (extractPatterns sampleTri cfgGroundOne).patterns.map
        (fun q => decide (q ∈ (extractPatterns sampleTri cfgGroundOne).bottomSet))) ∧
    (∀ x, x < cfgGroundOne.outputWidth → ∀ p,
      waveGet (wfcNew sampleTri cfgGroundOne lgZero) x p = true →
      (wfcNew sampleTri cfgGroundOne lgZero).topPatterns.getD p false = true) ∧
    (∀ x, x < cfgGroundOne.outputWidth → ∀ p,
      waveGet (wfcNew sampleTri cfgGroundOne lgZero)
        ((cfgGroundOne.outputHeight - 1) * cfgGroundOne.outputWidth + x) p = true →
      (wfcNew sampleTri cfgGroundOne lgZero).bottomPatterns.getD p false = true) :=
  c5_ground_edge sampleTri cfgGroundOne lgZero (by decide) (by decide)

/-! ## C6 -/

/-- Sum of the weights of the first `k` elements of the allowed list. -/
def prefW (ws : List ℚ) (ps : List Nat) (k : Nat) : ℚ :=
  ((ps.take k).map fun i => ws.getD i 0).sum

theorem prefW_cons (ws : List ℚ) (p0 : Nat) (rest : List Nat) (k : Nat) :
    prefW ws (p0 :: rest) (k + 1) = ws.getD p0 0 + prefW ws rest k := by
  simp [prefW, List.take_succ_cons]

theorem collapseTotal_eq (s : WfcState) (cell : Nat) :
    collapseTotal s cell =
      prefW s.weights (collapsePossible s cell)
        (collapsePossible s cell).length := by
  simp [collapseTotal, prefW, List.take_length]

theorem walkPick_mem (ws : List ℚ) :
    ∀ (ps : List Nat) (r : ℚ) (p : Nat), walkPick ws ps r = some p → p ∈ ps := by
  intro ps
  induction ps with
  | nil =>
    intro r p h
    exact absurd h (by simp [walkPick])
  | cons p0 rest ih =>
    intro r p h
    unfold walkPick at h
    dsimp only at h
    split at h
    · cases h
      exact List.mem_cons_self p0 rest
    · exact List.mem_cons_of_mem p0 (ih _ p h)

theorem walkPick_spec (ws : List ℚ) :
    ∀ (ps : List Nat) (r : ℚ) (i : Nat) (h : i < ps.length),
    (∀ j, j < i → 0 < r - prefW ws ps (j + 1)) →
    r - prefW ws ps (i + 1) ≤ 0 →
    walkPick ws ps r = some (ps.get ⟨i, h⟩) := by
  intro ps
  induction ps with
  | nil =>
    intro r i h
    exact absurd h (by simp)
  | cons p0 rest ih =>
    intro r i h hpos htrig
    cases i with
    | zero =>
      have hw : prefW ws (p0 :: rest) 1 = ws.getD p0 0 := by
        simp [prefW]
      rw [hw] at htrig
      unfold walkPick
      dsimp only
      rw [if_pos htrig]
      rfl
    | succ i2 =>
      have h0 := hpos 0 (by omega)
      have hw : prefW ws (p0 :: rest) 1 = ws.getD p0 0 := by
        simp [prefW]
      rw [hw] at h0
      unfold walkPick
      dsimp only
      rw [if_neg (by linarith)]
      have hres := ih (r - ws.getD p0 0) i2 (by simpa using h)
        (fun j hj => by
          have := hpos (j + 1) (by omega)
          rw [prefW_cons] at this
          linarith)
        (by
          rw [prefW_cons] at htrig
          linarith)
      exact hres

theorem exists_first_trigger (ws : List ℚ) (ps : List Nat) (r : ℚ)
    (hlt : r < prefW ws ps ps.length) (hne : ps ≠ []) :
    ∃ i, ∃ _ : i < ps.length, (r - prefW ws ps (i + 1) ≤ 0) ∧
      ∀ j, j < i → 0 < r - prefW ws ps (j + 1) := by
  have hlen : 1 ≤ ps.length := by
    cases ps with
    | nil => exact absurd rfl hne
    | cons a t => simp
  have hP : ∃ k, k < ps.length ∧ r - prefW ws ps (k + 1) ≤ 0 := by
    refine ⟨ps.length - 1, by omega, ?_⟩
    have : ps.length - 1 + 1 = ps.length := by omega
    rw [this]
    linarith
  refine ⟨Nat.find hP, (Nat.find_spec hP).1, (Nat.find_spec hP).2, ?_⟩
  intro j hj
  have := Nat.find_min hP hj
  have hjlen : j < ps.length := by
    have := (Nat.find_spec hP).1
    omega
  by_contra hcon
  exact this ⟨hjlen, by linarith⟩

theorem collapse_fold_waveGet (cell chosen : Nat) :
    ∀ (L : List Nat) (t : WfcState) (c2 p : Nat),
    waveGet (L.foldl (fun acc p2 =>
      if p2 ≠ chosen ∧ waveGet acc cell p2 = true then ban acc cell p2
      else acc) t) c2 p =
    if c2 = cell ∧ p ∈ L ∧ p ≠ chosen then false else waveGet t c2 p := by
  intro L
  induction L with
  | nil =>
    intro t c2 p
    rw [if_neg (fun hh => by simpa using hh.2.1)]
    rfl
  | cons a rest ih =>
    intro t c2 p
    rw [List.foldl_cons, ih]
    by_cases hmain : c2 = cell ∧ p ∈ a :: rest ∧ p ≠ chosen
    · rw [if_pos hmain]
      obtain ⟨hcc, hmem, hpc⟩ := hmain
      subst hcc
      rcases List.mem_cons.mp hmem with he | hmem2
      · subst he
        by_cases hrest : p ∈ rest
        · rw [if_pos ⟨rfl, hrest, hpc⟩]
        · rw [if_neg (fun hh => hrest hh.2.1)]
          by_cases hw : waveGet t c2 p = true
          · rw [if_pos ⟨hpc, hw⟩, waveGet_ban, if_pos ⟨rfl, rfl⟩]
          · rw [if_neg (fun hh => hw hh.2)]
            simpa using hw
      · rw [if_pos ⟨rfl, hmem2, hpc⟩]
    · rw [if_neg (fun ⟨a1, a2, a3⟩ =>
        hmain ⟨a1, List.mem_cons_of_mem a a2, a3⟩)]
      by_cases hstep : a ≠ chosen ∧ waveGet t cell a = true
      · rw [if_pos hstep, waveGet_ban]
        rw [if_neg (fun ⟨b1, b2⟩ =>
          hmain ⟨b1, b2 ▸ List.mem_cons_self a rest, b2 ▸ hstep.1⟩)]
        rw [if_neg hmain]
      · rw [if_neg hstep]
        rw [if_neg hmain]

theorem collapseChosen_mem {s : WfcState} {cell : Nat} (q : ℚ)
    (hne : collapsePossible s cell ≠ []) :
    collapseChosen s cell q ∈ collapsePossible s cell := by
  unfold collapseChosen pickWithFallback
  cases hwp : walkPick s.weights (collapsePossible s cell)
      (q * collapseTotal s cell) with
  | none =>
    cases hps : collapsePossible s cell with
    | nil => exact absurd hps hne
    | cons a t =>
      simp [hps]
  | some p =>
    simpa using walkPick_mem s.weights _ _ p hwp

/-- Follows the spec's words for the fallback: pick by the weighted walk,
falling back to the LAST allowed pattern when no element triggers.  The
source instead falls back to `possible[0]`, the first. -/
def specFallbackLastPick (ws : List ℚ) (ps : List Nat) (r : ℚ) : Nat :=
  (walkPick ws ps r).getD ((ps.getLast?).getD 0)

/-- C6 counterexample: with allowed patterns `[0, 1]`, both of weight 1,
and a remainder that never drops to `≤ 0` (the no-trigger case the claim
attributes to floating-point rounding), the source's
`.unwrap_or(possible[0])` picks pattern 0 — the FIRST allowed pattern —
whereas the claim's fallback-to-last would pick pattern 1. -/
theorem c6_counterexample :
    walkPick [1, 1] [0, 1] 5 = none ∧
    pickWithFallback [1, 1] [0, 1] 5 = 0 ∧
    specFallbackLastPick [1, 1] [0, 1] 5 = 1 ∧
    (0 : Nat) ≠ 1 := by
  have hnone : walkPick [1, 1] [0, 1] 5 = none := by
    unfold walkPick
    dsimp only
    rw [if_neg (by norm_num [List.getD_cons_zero])]
    unfold walkPick
    dsimp only
    rw [if_neg (by norm_num [List.getD_cons_succ, List.getD_cons_zero])]
    rfl
  refine ⟨hnone, ?_, ?_, by decide⟩
  · unfold pickWithFallback
    rw [hnone]
    rfl
  · unfold specFallbackLastPick
    rw [hnone]
    rfl

/-- C6 amended: for a cell with non-empty allowed list and draw
`r = q * total`: (1) whenever `0 ≤ r < total` the walk picks the first
allowed pattern (in index order — `collapsePossible` is ascending) at
which the running remainder `r - prefW (i+1)` drops to `≤ 0` (such a
pattern always exists in exact arithmetic); (2) when no element
triggers, the fallback is the FIRST allowed pattern `possible[0]`, not
the last as the claim states; (3) every other pattern of that cell is
then banned: after `collapse` exactly the chosen pattern remains. -/
theorem c6_collapse_amended (s : WfcState) (cell : Nat) (q : ℚ) (rng : List ℚ)
    (hne : collapsePossible s cell ≠ []) :
    (0 ≤ q * collapseTotal s cell →
      q * collapseTotal s cell < collapseTotal s cell →
      ∃ i, ∃ hlt : i < (collapsePossible s cell).length,
        collapseChosen s cell q = (collapsePossible s cell).get ⟨i, hlt⟩ ∧
        q * collapseTotal s cell -
          prefW s.weights (collapsePossible s cell) (i + 1) ≤ 0 ∧
        ∀ j, j < i → 0 < q * collapseTotal s cell -
          prefW s.weights (collapsePossible s cell) (j + 1)) ∧
    (walkPick s.weights (collapsePossible s cell)
        (q * collapseTotal s cell) = none →
      collapseChosen s cell q = (collapsePossible s cell).getD 0 0) ∧
    (∀ p, p < s.patterns.length →
      (waveGet (collapseFn s cell (q :: rng)).1 cell p = true ↔
        p = collapseChosen s cell q)) := by
  refine ⟨?_, ?_, ?_⟩
  · intro _ hlt
    have hlt2 := lt_of_lt_of_eq hlt (collapseTotal_eq s cell)
    obtain ⟨i, hil, htrig, hpos⟩ := exists_first_trigger s.weights
      (collapsePossible s cell) (q * collapseTotal s cell) hlt2 hne
    refine ⟨i, hil, ?_, htrig, hpos⟩
    unfold collapseChosen pickWithFallback
    rw [walkPick_spec s.weights (collapsePossible s cell)
      (q * collapseTotal s cell) i hil hpos htrig]
    rfl
  · intro hnone
    unfold collapseChosen pickWithFallback
    rw [hnone]
    rfl
  · intro p hp
    have hchosen := collapseChosen_mem q hne
    have hwavechosen : waveGet s cell (collapseChosen s cell q) = true :=
      (List.mem_filter.mp hchosen).2
    unfold collapseFn
    dsimp only
    rw [if_neg (by simpa [List.isEmpty_iff] using hne)]
    rw [show nextRand (q :: rng) = (q, rng) from rfl]
    dsimp only
    rw [collapse_fold_waveGet cell (collapseChosen s cell q)
      (List.range s.patterns.length) s cell p]
    by_cases hpc : p = collapseChosen s cell q
    · subst hpc
      rw [if_neg (fun hh => hh.2.2 rfl)]
      simp [hwavechosen]
    · rw [if_pos ⟨rfl, List.mem_range.mpr hp, hpc⟩]
      simp [hpc]

/-- A 2 x 1 two-color sample. -/
def sampleAB : Sample := ⟨2, 1, [(1, 1, 1), (2, 2, 2)]⟩

/-- 1 x 1 patterns, 1 x 1 output, nothing periodic on output, no
symmetry, no edge constraints. -/
def cfgAB : WfcConfig := ⟨1, 1, 1, true, false, false, false, false⟩

def sAB : WfcState := wfcNew sampleAB cfgAB lgZero

/-- Witness for C6 at a concrete two-pattern cell. -/
theorem c6_collapse_amended_witness :
    (0 ≤ (0 : ℚ) * collapseTotal sAB 0 →
      (0 : ℚ) * collapseTotal sAB 0 < collapseTotal sAB 0 →
      ∃ i, ∃ hlt : i < (collapsePossible sAB 0).length,
        collapseChosen sAB 0 0 = (collapsePossible sAB 0).get ⟨i, hlt⟩ ∧
        (0 : ℚ) * collapseTotal sAB 0 -
          prefW sAB.weights (collapsePossible sAB 0) (i + 1) ≤ 0 ∧
        ∀ j, j < i → 0 < (0 : ℚ) * collapseTotal sAB 0 -
          prefW sAB.weights (collapsePossible sAB 0) (j + 1)) ∧
    (walkPick sAB.weights (collapsePossible sAB 0)
        ((0 : ℚ) * collapseTotal sAB 0) = none →
      collapseChosen sAB 0 0 = (collapsePossible sAB 0).getD 0 0) ∧
    (∀ p, p < sAB.patterns.length →
      (waveGet (collapseFn sAB 0 ((0 : ℚ) :: [])).1 0 p = true ↔
        p = collapseChosen sAB 0 0)) :=
  c6_collapse_amended sAB 0 0 [] (by decide)

/-! ## C8: determinism of seeded complete executions -/

section
attribute [local semireducible] Rat.add Rat.sub Rat.mul Rat.inv

set_option maxHeartbeats 2000000 in
/-- C8: counterexample. `extract_patterns` accumulates the pattern counts in a
`HashMap` and enumerates it with `.iter()`, whose order Rust's hashed
`RandomState` varies between processes; the enumeration order is not part of
the seeded RNG. On `sampleAB` the extracted multiset is `{patA ↦ 1, patB ↦ 1}`,
so both enumeration orders `[patA, patB]` and `[patB, patA]` are faithful runs
of `Wfc::new`; with the identical RNG stream `[0, 0]` the two complete
executions render different colors, so bit-identical inputs and seed do not
force bit-identical `render()` output. -/
theorem c8_counterexample :
    (extractPatterns sampleAB cfgAB).patterns = [patA, patB] ∧
    (extractPatterns sampleAB cfgAB).weights = [1, 1] ∧
    [patB, patA].Perm [patA, patB] ∧
    render (wfcRun (wfcInitFrom [patA, patB] [1, 1] [] [] [] [] cfgAB lgZero)
      [0, 0]) = [(1, 1, 1)] ∧
    render (wfcRun (wfcInitFrom [patB, patA] [1, 1] [] [] [] [] cfgAB lgZero)
      [0, 0]) = [(2, 2, 2)] := by
  decide

end

/-- C8 (amended): once the pattern enumeration order is fixed — the solver is
built from one explicit ordered list of patterns, weights and edge sets — the
complete execution is a deterministic function of the RNG stream: identical
seeds give bit-identical `render()` outputs. -/
theorem c8_determinism_amended (ps : List Pattern) (ws : List ℚ)
    (tS bS lS rS : List Pattern) (cfg : WfcConfig) (lg : ℚ → ℚ)
    (rngA rngB : List ℚ) (h : rngA = rngB) :
    render (wfcRun (wfcInitFrom ps ws tS bS lS rS cfg lg) rngA) =
      render (wfcRun (wfcInitFrom ps ws tS bS lS rS cfg lg) rngB) := by
  rw [h]

/-- Witness for the amended C8 at a concrete solver and stream. -/
theorem c8_determinism_amended_witness :
    ([(0 : ℚ), 0] = [0, 0]) ∧
    render (wfcRun (wfcInitFrom [patA, patB] [1, 1] [] [] [] [] cfgAB lgZero)
        [0, 0]) =
      render (wfcRun (wfcInitFrom [patA, patB] [1, 1] [] [] [] [] cfgAB lgZero)
        [0, 0]) :=
  ⟨rfl, c8_determinism_amended [patA, patB] [1, 1] [] [] [] [] cfgAB lgZero
    [0, 0] [0, 0] rfl⟩

/-! ## C7: reset restores the post-construction state -/

/-- `mkResetState` only reads the cached fields, so two states with the same
base data reset to the same state. -/
theorem mkResetState_congr {s t : WfcState} (h : baseOf s = baseOf t) :
    mkResetState s = mkResetState t := by
  cases s; cases t
  simp only [baseOf, BaseData.mk.injEq] at h
  obtain ⟨h1, h2, h3, h4, h5, h6, h7, h8, h9, h10, h11⟩ := h
  subst h1 h2 h3 h4 h5 h6 h7 h8 h9 h10 h11
  rfl

/-- Resetting the freshly built (pre-edge-constraint) state is the identity:
`reset` recomputes the wave and the three statistics vectors with exactly the
formulas `new` used. -/
theorem mkResetState_mkInit (ps : List Pattern) (ws : List ℚ)
    (tS bS lS rS : List Pattern) (cfg : WfcConfig) (lg : ℚ → ℚ) :
    mkResetState (mkInitState ps ws tS bS lS rS cfg lg) =
      mkInitState ps ws tS bS lS rS cfg lg := rfl

/-- C7: after any sequence of `step()` and `run()` calls (any interleaving of
`step` with arbitrary RNG draws and intermediate `reset`s), `reset()` returns
the solver to exactly the state `Wfc::new` produced — the wave, the per-cell
statistics `sumsone`, `sumweights`, `sumweightlogweights`, the stack and the
`contradiction`/`done` flags are restored bit-for-bit, because `reset` rebuilds
them from the cached patterns, weights and `log_weights` with the same formulas
as `new` and then replays the same `apply_edge_constraints`. -/
theorem c7_reset_restores (sample : Sample) (cfg : WfcConfig) (lg : ℚ → ℚ)
    (s : WfcState) (h : ReachableFrom (wfcNew sample cfg lg) s) :
    wfcReset s = wfcNew sample cfg lg := by
  have hb : baseOf s = baseOf (wfcNew sample cfg lg) := baseOf_reachableFrom h
  have hb2 : baseOf (wfcNew sample cfg lg) =
      baseOf (mkInitState (extractPatterns sample cfg).patterns
        (extractPatterns sample cfg).weights
        (extractPatterns sample cfg).topSet (extractPatterns sample cfg).bottomSet
        (extractPatterns sample cfg).leftSet (extractPatterns sample cfg).rightSet
        cfg lg) := baseOf_applyEdge _
  show applyEdgeConstraints (mkResetState s) = wfcNew sample cfg lg
  rw [mkResetState_congr (hb.trans hb2), mkResetState_mkInit]
  rfl

/-- Witness for C7: one concrete `step` then `reset`. -/
theorem c7_reset_restores_witness :
    wfcReset (stepFn (wfcNew sampleAB cfgAB lgZero) [0, 0]).2.1 =
      wfcNew sampleAB cfgAB lgZero :=
  c7_reset_restores sampleAB cfgAB lgZero _
    (ReachableFrom.step _ [0, 0] ReachableFrom.refl)

/-! ## C9: pattern extraction on a one-pixel sample -/

/-- C9: counterexample. With `pattern_size = 1`, `periodic_input = true`,
`symmetry = true` and `ground = true` the single window's variant list is
`vec![pattern, pattern.reflect()]`; on a 1 x 1 pattern the reflection is the
pattern itself, the unguarded pair double-counts it, and the single extracted
pattern gets weight 2, not 1. -/
theorem c9_counterexample :
    (extractPatterns sampleOne ⟨1, 1, 1, true, false, true, true, false⟩).patterns
      = [⟨1, [(5, 5, 5)]⟩] ∧
    (extractPatterns sampleOne ⟨1, 1, 1, true, false, true, true, false⟩).weights
      = [2] ∧
    (2 : ℚ) ≠ 1 := by decide

theorem range_one_eq : List.range 1 = [0] := rfl

/-- Rotating a 1 x 1 pattern is the identity. -/
theorem rotate_one (c : Color) : Pattern.rotate ⟨1, [c]⟩ = ⟨1, [c]⟩ := by
  simp [Pattern.rotate, Pattern.get, range_one_eq]

/-- Reflecting a 1 x 1 pattern is the identity. -/
theorem reflect_one (c : Color) : Pattern.reflect ⟨1, [c]⟩ = ⟨1, [c]⟩ := by
  simp [Pattern.reflect, Pattern.get, range_one_eq]

/-- All eight symmetries of a 1 x 1 pattern collapse to the pattern itself;
the `HashSet` deduplicates them. -/
theorem symmetries_one (c : Color) :
    Pattern.symmetries ⟨1, [c]⟩ = [⟨1, [c]⟩] := by
  simp [Pattern.symmetries, rotate_one, reflect_one, insertUniq]

/-- The only window of a one-pixel sample is the 1 x 1 pattern holding its
pixel. -/
theorem window_one (c : Color) :
    extractWindow ⟨1, 1, [c]⟩ 1 0 0 = ⟨1, [c]⟩ := by
  simp [extractWindow, Sample.get, range_one_eq]

/-- C9 (amended): with `pattern_size = 1` and `periodic_input = true`,
extraction on a one-pixel sample yields exactly one pattern — the sample's
pixel — but its weight is 2 when `symmetry` is set together with `ground` or
`sides` (the `vec![pattern, pattern.reflect()]` branch counts the 1 x 1
pattern twice), and 1 in every other configuration. -/
theorem c9_one_pixel_amended (c : Color) (ow oh : Nat) (po sym gr sd : Bool) :
    (extractPatterns ⟨1, 1, [c]⟩ ⟨1, ow, oh, true, po, sym, gr, sd⟩).patterns
      = [⟨1, [c]⟩] ∧
    (extractPatterns ⟨1, 1, [c]⟩ ⟨1, ow, oh, true, po, sym, gr, sd⟩).weights
      = [if sym && (gr || sd) then 2 else 1] := by
  have hstep : extractPatterns ⟨1, 1, [c]⟩ ⟨1, ow, oh, true, po, sym, gr, sd⟩
      = extractStep ⟨1, 1, [c]⟩ ⟨1, ow, oh, true, po, sym, gr, sd⟩
          ⟨[], [], [], [], []⟩ 0 0 := rfl
  rw [hstep]
  unfold extractStep
  dsimp only
  rw [show extractWindow ⟨1, 1, [c]⟩
      (WfcConfig.patternSize ⟨1, ow, oh, true, po, sym, gr, sd⟩) 0 0
      = ⟨1, [c]⟩ from window_one c]
  cases sym <;> cases gr <;> cases sd <;>
    simp [extractVariants, reflect_one, symmetries_one, bumpCount, insertUniq,
      ExtractOut.patterns, ExtractOut.weights]

/-! ## C10: the allowed-pair count and termination of `run` -/

theorem totalTrue_ban (s : WfcState) (c p : Nat) :
    totalTrue (ban s c p) ≤ totalTrue s := by
  unfold ban
  by_cases h : waveGet s c p = true
  · rw [if_pos h]
    have hc : c < s.wave.length := waveGet_lt_cell h
    have hget : (s.wave.getD c []).getD p false = true := h
    have hkey := sum_map_cnt_set s.wave c ((s.wave.getD c []).set p false) hc
    have hcnt := cnt_set_false hget
    have hpos := cnt_pos hget
    show ((s.wave.set c ((s.wave.getD c []).set p false)).map cnt).sum ≤
      (s.wave.map cnt).sum
    omega
  · rw [if_neg h]

theorem totalTrue_procDir (st : WfcState) (cell pattern d neighbor : Nat) :
    totalTrue (procDir st cell pattern d neighbor).1 ≤ totalTrue st := by
  unfold procDir
  refine foldl_pres (fun acc : WfcState × Bool =>
    totalTrue acc.1 ≤ totalTrue st) _ ?_ _ _ (le_refl _)
  intro acc a hacc
  dsimp only
  by_cases h2 : acc.2 = true
  · rwa [if_pos h2]
  · rw [if_neg h2]
    split
    · exact le_trans (totalTrue_ban acc.1 neighbor a) hacc
    · exact le_trans (totalTrue_ban acc.1 neighbor a) hacc

theorem totalTrue_processEntry (s : WfcState) (cell pattern : Nat) :
    totalTrue (processEntry s cell pattern).1 ≤ totalTrue s := by
  unfold processEntry
  refine foldl_pres (fun acc : WfcState × Bool =>
    totalTrue acc.1 ≤ totalTrue s) _ ?_ _ _ (le_refl _)
  intro acc a hacc
  dsimp only
  by_cases h2 : acc.2 = true
  · rwa [if_pos h2]
  · rw [if_neg h2]
    split
    · exact hacc
    · exact le_trans (totalTrue_procDir _ cell pattern a _) hacc

theorem totalTrue_propagateFuel (fuel : Nat) :
    ∀ s : WfcState, totalTrue (propagateFuel fuel s) ≤ totalTrue s := by
  induction fuel with
  | zero => intro s; exact le_refl _
  | succ m ih =>
    intro s
    unfold propagateFuel
    split
    · exact le_refl _
    · dsimp only
      split
      · exact totalTrue_processEntry _ _ _
      · exact le_trans (ih _) (totalTrue_processEntry _ _ _)

theorem totalTrue_propagate (s : WfcState) :
    totalTrue (propagate s) ≤ totalTrue s :=
  totalTrue_propagateFuel _ s

theorem totalTrue_observeFn (s : WfcState) (rng : List ℚ) :
    totalTrue (observeFn s rng).2.1 = totalTrue s := by
  unfold observeFn
  rcases observeLoop_state s (List.range s.wave.length)
      (fun c h => List.mem_range.mp h) rng none none with h | ⟨h1, _, _⟩
  · rw [h]
  · rw [h1]
    rfl

theorem totalTrue_collapseFn (s : WfcState) (cell : Nat) (rng : List ℚ) :
    totalTrue (collapseFn s cell rng).1 ≤ totalTrue s := by
  unfold collapseFn
  dsimp only
  split
  · exact le_refl _
  · refine foldl_pres (fun t => totalTrue t ≤ totalTrue s) _ ?_ _ _ (le_refl _)
    intro acc a ha
    dsimp only
    split
    · exact le_trans (totalTrue_ban acc cell a) ha
    · exact ha

theorem totalTrue_stepFn (s : WfcState) (rng : List ℚ) :
    totalTrue (stepFn s rng).2.1 ≤ totalTrue s := by
  unfold stepFn
  split
  · exact le_refl _
  · split
    · rename_i s1 rng1 heq
      have hobs := totalTrue_observeFn s rng
      rw [heq] at hobs
      split
      · exact le_of_eq hobs
      · exact le_of_eq hobs
    · rename_i cell s1 rng1 heq
      obtain ⟨hs1, hcell, _⟩ :=
        @observeFn_some s rng cell (by rw [heq])
      rw [heq] at hs1
      have hs2 : s1 = s := hs1
      subst hs2
      dsimp only
      exact le_trans (totalTrue_propagate _) (totalTrue_collapseFn _ cell rng1)

theorem cnt_le_of_pointwise (l1 : List Bool) :
    ∀ l2 : List Bool, l1.length = l2.length →
    (∀ p, l1.getD p false = true → l2.getD p false = true) →
    cnt l1 ≤ cnt l2 := by
  induction l1 with
  | nil => intro l2 _ _; exact Nat.zero_le _
  | cons b1 t1 ih =>
    intro l2 hlen hpt
    cases l2 with
    | nil => simp at hlen
    | cons b2 t2 =>
      have h0 : b1 = true → b2 = true := by
        intro hb
        have := hpt 0 (by simpa using hb)
        simpa using this
      have ht : ∀ p, t1.getD p false = true → t2.getD p false = true := by
        intro p hp
        have := hpt (p + 1) (by simpa using hp)
        simpa using this
      have htail := ih t2 (by simpa using hlen) ht
      cases b1
      · show 0 + cnt t1 ≤ (if b2 then 1 else 0) + cnt t2
        cases b2 <;> simp <;> omega
      · have hb2 : b2 = true := h0 rfl
        subst hb2
        show 1 + cnt t1 ≤ 1 + cnt t2
        omega

theorem cnt_lt_of_pointwise (l1 : List Bool) :
    ∀ (l2 : List Bool) (p0 : Nat), l1.length = l2.length →
    (∀ p, l1.getD p false = true → l2.getD p false = true) →
    l1.getD p0 false = false → l2.getD p0 false = true →
    cnt l1 < cnt l2 := by
  induction l1 with
  | nil =>
    intro l2 p0 hlen _ _ h2
    cases l2 with
    | nil => simp at h2
    | cons b2 t2 => simp at hlen
  | cons b1 t1 ih =>
    intro l2 p0 hlen hpt h1 h2
    cases l2 with
    | nil => simp at hlen
    | cons b2 t2 =>
      have ht : ∀ p, t1.getD p false = true → t2.getD p false = true := by
        intro p hp
        have := hpt (p + 1) (by simpa using hp)
        simpa using this
      have hlen2 : t1.length = t2.length := by simpa using hlen
      cases p0 with
      | zero =>
        have hb1 : b1 = false := by simpa using h1
        have hb2 : b2 = true := by simpa using h2
        subst hb1
        subst hb2
        have htail := cnt_le_of_pointwise t1 t2 hlen2 ht
        show 0 + cnt t1 < 1 + cnt t2
        omega
      | succ j =>
        have htail := ih t2 j hlen2 ht (by simpa using h1) (by simpa using h2)
        have hhead : (if b1 then 1 else 0) ≤ (if b2 then 1 else 0) := by
          cases b1
          · cases b2 <;> simp
          · have hb2 : b2 = true := by
              have := hpt 0 (by simp)
              simpa using this
            subst hb2
            exact le_refl _
        show (if b1 then 1 else 0) + cnt t1 < (if b2 then 1 else 0) + cnt t2
        omega

theorem sum_map_cnt_eq (w : List (List Bool)) :
    (w.map cnt).sum = ∑ c in Finset.range w.length, cnt (w.getD c []) := by
  induction w with
  | nil => simp
  | cons a t ih =>
    rw [List.map_cons, List.sum_cons, ih, List.length_cons,
      Finset.sum_range_succ']
    simp only [List.getD_cons_succ, List.getD_cons_zero]
    omega

theorem totalTrue_lt_of_pointwise {t s : WfcState}
    (hlen : t.wave.length = s.wave.length)
    (hrow : ∀ c, (t.wave.getD c []).length = (s.wave.getD c []).length)
    (hle : WaveLe t s) (c0 p0 : Nat)
    (hf : waveGet t c0 p0 = false) (htr : waveGet s c0 p0 = true) :
    totalTrue t < totalTrue s := by
  have hc0 : c0 < s.wave.length := waveGet_lt_cell htr
  show (t.wave.map cnt).sum < (s.wave.map cnt).sum
  rw [sum_map_cnt_eq, sum_map_cnt_eq, hlen]
  refine Finset.sum_lt_sum ?_ ⟨c0, Finset.mem_range.mpr hc0, ?_⟩
  · intro c _
    exact cnt_le_of_pointwise _ _ (hrow c) (fun p hp => hle c p hp)
  · exact cnt_lt_of_pointwise _ _ p0 (hrow c0) (fun p hp => hle c0 p hp) hf htr

theorem wave_struct_ban (s : WfcState) (c p : Nat) :
    (ban s c p).wave.length = s.wave.length ∧
    ∀ c2, ((ban s c p).wave.getD c2 []).length =
      (s.wave.getD c2 []).length := by
  refine ⟨wave_length_ban s c p, ?_⟩
  intro c2
  unfold ban
  split
  · rename_i h
    have hc : c < s.wave.length := waveGet_lt_cell h
    show ((s.wave.set c ((s.wave.getD c []).set p false)).getD c2 []).length = _
    by_cases hc2 : c2 = c
    · subst hc2
      rw [getD_set_self hc]
      exact List.length_set _ _ _
    · rw [getD_set_ne (fun hh => hc2 hh.symm)]
  · rfl

theorem collapse_fold_waveLe (cell chosen : Nat) (L : List Nat) (t : WfcState) :
    WaveLe (L.foldl (fun acc p2 =>
      if p2 ≠ chosen ∧ waveGet acc cell p2 = true then ban acc cell p2
      else acc) t) t := by
  refine foldl_pres (fun u => WaveLe u t) _ ?_ L t (waveLe_refl t)
  intro acc a hacc
  dsimp only
  split
  · exact waveLe_trans (waveLe_ban acc cell a) hacc
  · exact hacc

theorem collapse_fold_struct (cell chosen : Nat) (L : List Nat) (t : WfcState) :
    (L.foldl (fun acc p2 =>
      if p2 ≠ chosen ∧ waveGet acc cell p2 = true then ban acc cell p2
      else acc) t).wave.length = t.wave.length ∧
    ∀ c2, ((L.foldl (fun acc p2 =>
      if p2 ≠ chosen ∧ waveGet acc cell p2 = true then ban acc cell p2
      else acc) t).wave.getD c2 []).length = (t.wave.getD c2 []).length := by
  refine foldl_pres (fun u => u.wave.length = t.wave.length ∧
    ∀ c2, (u.wave.getD c2 []).length = (t.wave.getD c2 []).length)
    _ ?_ L t ⟨rfl, fun _ => rfl⟩
  intro acc a ha
  obtain ⟨ha1, ha2⟩ := ha
  split
  · obtain ⟨g1, g2⟩ := wave_struct_ban acc cell a
    exact ⟨g1.trans ha1, fun c2 => (g2 c2).trans (ha2 c2)⟩
  · exact ⟨ha1, ha2⟩

theorem exists_true_of_cnt_pos (l : List Bool) (h : 1 ≤ cnt l) :
    ∃ p, l.getD p false = true := by
  induction l with
  | nil => simp [cnt] at h
  | cons b t ih =>
    cases b
    · have ht : 1 ≤ cnt t := by simpa [cnt] using h
      obtain ⟨p, hp⟩ := ih ht
      exact ⟨p + 1, by simpa using hp⟩
    · exact ⟨0, by simp⟩

theorem exists_true_ne (l : List Bool) (h : 2 ≤ cnt l) :
    ∀ ch : Nat, ∃ p, l.getD p false = true ∧ p ≠ ch := by
  induction l with
  | nil => simp [cnt] at h
  | cons b t ih =>
    intro ch
    cases b
    · have ht : 2 ≤ cnt t := by simpa [cnt] using h
      cases ch with
      | zero =>
        obtain ⟨p, hp⟩ := exists_true_of_cnt_pos t (by omega)
        exact ⟨p + 1, by simpa using hp, by omega⟩
      | succ j =>
        obtain ⟨p, hp, hne⟩ := ih ht j
        exact ⟨p + 1, by simpa using hp, by omega⟩
    · have ht : 1 ≤ cnt t := by
        have : cnt (true :: t) = 1 + cnt t := rfl
        omega
      cases ch with
      | zero =>
        obtain ⟨p, hp⟩ := exists_true_of_cnt_pos t ht
        exact ⟨p + 1, by simpa using hp, by omega⟩
      | succ j => exact ⟨0, by simp, by omega⟩

theorem totalTrue_collapseFn_lt {s : WfcState} (inv : MainInv s) {cell : Nat}
    (hc : cell < s.wave.length) (hge2 : 2 ≤ s.sumsone.getD cell 0)
    (rng : List ℚ) :
    totalTrue (collapseFn s cell rng).1 < totalTrue s := by
  have hcnt : s.sumsone.getD cell 0 = cnt (s.wave.getD cell []) := by
    rw [inv.1, getD_map_rel cnt s.wave cell [] 0 rfl]
  have hcnt2 : 2 ≤ cnt (s.wave.getD cell []) := hcnt ▸ hge2
  have hne : collapsePossible s cell ≠ [] := by
    intro hnil
    have := collapsePossible_nil_cnt inv hnil
    omega
  unfold collapseFn
  dsimp only
  rw [if_neg (by simpa [List.isEmpty_iff] using hne)]
  rcases hq : nextRand rng with ⟨q, rng1⟩
  dsimp only
  have hrowlen : (s.wave.getD cell []).length = s.patterns.length :=
    inv.2.2.2.2.1 _ (getD_mem s.wave cell [] hc)
  obtain ⟨p0, hp0, hp0ne⟩ :=
    exists_true_ne (s.wave.getD cell []) hcnt2 (collapseChosen s cell q)
  have hp0lt : p0 < s.patterns.length := hrowlen ▸ getD_true_lt hp0
  have hp0mem : p0 ∈ List.range s.patterns.length := List.mem_range.mpr hp0lt
  have hfalse : waveGet ((List.range s.patterns.length).foldl (fun acc p2 =>
      if p2 ≠ collapseChosen s cell q ∧ waveGet acc cell p2 = true then
        ban acc cell p2
      else acc) s) cell p0 = false := by
    rw [collapse_fold_waveGet]
    rw [if_pos ⟨rfl, hp0mem, hp0ne⟩]
  obtain ⟨g1, g2⟩ := collapse_fold_struct cell (collapseChosen s cell q)
    (List.range s.patterns.length) s
  exact totalTrue_lt_of_pointwise g1 g2
    (collapse_fold_waveLe cell (collapseChosen s cell q)
      (List.range s.patterns.length) s) cell p0 hfalse hp0

theorem totalTrue_stepFn_lt {s : WfcState} (inv : MainInv s) (rng : List ℚ)
    (h : (stepFn s rng).1 = true) :
    totalTrue (stepFn s rng).2.1 < totalTrue s := by
  by_cases hcond : (s.contradiction || s.done) = true
  · exfalso
    unfold stepFn at h
    rw [if_pos hcond] at h
    exact absurd h (by simp)
  · rcases hobs : observeFn s rng with ⟨ocell, s1, rng1⟩
    cases ocell with
    | none =>
      exfalso
      unfold stepFn at h
      rw [if_neg hcond, hobs] at h
      dsimp only at h
      split at h <;> simp at h
    | some cell =>
      unfold stepFn
      rw [if_neg hcond, hobs]
      dsimp only
      obtain ⟨hs1, hcell, hge2⟩ :=
        @observeFn_some s rng cell (by rw [hobs])
      rw [hobs] at hs1
      have hs2 : s1 = s := hs1
      subst hs2
      have hstate : MainInv { s1 with lastCollapsed := some (cell % s1.cfg.outputWidth, cell / s1.cfg.outputWidth) } := inv
      exact lt_of_le_of_lt (totalTrue_propagate _)
        (totalTrue_collapseFn_lt hstate hcell hge2 rng1)

theorem wfcRunFuel_succ (m : Nat) (s : WfcState) (rng : List ℚ) :
    wfcRunFuel (m + 1) s rng =
      if (stepFn s rng).1 = true then
        wfcRunFuel m (stepFn s rng).2.1 (stepFn s rng).2.2
      else (stepFn s rng).2.1 := rfl

theorem runFuel_stable : ∀ (n : Nat) (s : WfcState) (rng : List ℚ) (k : Nat),
    MainInv s → totalTrue s ≤ n →
    wfcRunFuel (n + 1 + k) s rng = wfcRunFuel (n + 1) s rng := by
  intro n
  induction n using Nat.strong_induction_on with
  | _ n ih =>
    intro s rng k inv hn
    have he : n + 1 + k = (n + k) + 1 := by omega
    rw [he, wfcRunFuel_succ, wfcRunFuel_succ]
    by_cases hstep : (stepFn s rng).1 = true
    · rw [if_pos hstep, if_pos hstep]
      have hlt := totalTrue_stepFn_lt inv rng hstep
      have hinv2 := MainInv_stepFn inv rng
      have h1 : n - 1 < n := by omega
      have h2 : totalTrue (stepFn s rng).2.1 ≤ n - 1 := by omega
      have e1 : n + k = (n - 1) + 1 + k := by omega
      have e2 : n = (n - 1) + 1 := by omega
      rw [e1, ih (n - 1) h1 _ _ k hinv2 h2]
      conv_rhs => rw [e2]
    · rw [if_neg hstep, if_neg hstep]

/-- C10: every solver state reachable from a constructed solver has a finite
non-negative allowed-pair total `totalTrue`; none of the operations `run`
performs — `ban`, `propagate`, `observe`, `collapse`, a whole `step` — ever
increases it; every `step()` returning `true` strictly decreases it; and
consequently the `while self.step() {}` loop of `run` stabilises within
`totalTrue + 1` iterations: extra fuel never changes the result. -/
theorem c10_run_terminates (sample : Sample) (cfg : WfcConfig) (lg : ℚ → ℚ)
    (s : WfcState) (h : ReachableFrom (wfcNew sample cfg lg) s) :
    (∀ c p, totalTrue (ban s c p) ≤ totalTrue s) ∧
    (totalTrue (propagate s) ≤ totalTrue s) ∧
    (∀ rng, totalTrue (observeFn s rng).2.1 = totalTrue s) ∧
    (∀ cell rng, totalTrue (collapseFn s cell rng).1 ≤ totalTrue s) ∧
    (∀ rng, totalTrue (stepFn s rng).2.1 ≤ totalTrue s) ∧
    (∀ rng, (stepFn s rng).1 = true →
      totalTrue (stepFn s rng).2.1 < totalTrue s) ∧
    (∀ rng k, wfcRunFuel (totalTrue s + 1 + k) s rng = wfcRun s rng) := by
  have inv : MainInv s := MainInv_reachable ⟨sample, cfg, lg, h⟩
  exact ⟨fun c p => totalTrue_ban s c p, totalTrue_propagate s,
    fun rng => totalTrue_observeFn s rng,
    fun cell rng => totalTrue_collapseFn s cell rng,
    fun rng => totalTrue_stepFn s rng,
    fun rng h2 => totalTrue_stepFn_lt inv rng h2,
    fun rng k => runFuel_stable (totalTrue s) s rng k inv (le_refl _)⟩

/-- Witness for C10 at the freshly constructed two-pattern solver. -/
theorem c10_run_terminates_witness :
    (∀ c p, totalTrue (ban sAB c p) ≤ totalTrue sAB) ∧
    (totalTrue (propagate sAB) ≤ totalTrue sAB) ∧
    (∀ rng, totalTrue (observeFn sAB rng).2.1 = totalTrue sAB) ∧
    (∀ cell rng, totalTrue (collapseFn sAB cell rng).1 ≤ totalTrue sAB) ∧
    (∀ rng, totalTrue (stepFn sAB rng).2.1 ≤ totalTrue sAB) ∧
    (∀ rng, (stepFn sAB rng).1 = true →
      totalTrue (stepFn sAB rng).2.1 < totalTrue sAB) ∧
    (∀ rng k, wfcRunFuel (totalTrue sAB + 1 + k) sAB rng = wfcRun sAB rng) :=
  c10_run_terminates sampleAB cfgAB lgZero sAB ReachableFrom.refl

/-- Witness for the amended C9 at the concrete one-pixel sample. -/
theorem c9_one_pixel_amended_witness :
    (extractPatterns ⟨1, 1, [(5, 5, 5)]⟩
        ⟨1, 1, 1, true, false, true, true, false⟩).patterns
      = [⟨1, [(5, 5, 5)]⟩] ∧
    (extractPatterns ⟨1, 1, [(5, 5, 5)]⟩
        ⟨1, 1, 1, true, false, true, true, false⟩).weights
      = [if true && (true || false) then 2 else 1] :=
  c9_one_pixel_amended (5, 5, 5) 1 1 false true true false
